import Mathlib

/-!
Verification of the PlecFinder detection pipeline (`plecfinder/plecfinder.py`).

The writhe matrix is embedded as a function `ℕ → ℕ → ℚ` together with its size `N`
(numpy float arithmetic is modelled by exact rationals).  Branch rectangles carry
integer indices (they can reach the sentinel value `-1`), and every numpy slice
`WM[a:b, c:d]` is modelled by `sliceSum`, which reproduces python slice semantics
including negative-index wraparound.  `np.pi` is kept as an explicit rational
parameter `piQ` (its exact value never matters for the statements below, which
hold for every value).
-/

namespace PlecFinder

/-- A branch record `[x1, x2, y1, y2]` (a row of the python `branches` list). -/
structure Branch where
  x1 : ℤ
  x2 : ℤ
  y1 : ℤ
  y2 : ℤ
deriving DecidableEq, Repr, Inhabited

/-- A one-dimensional index interval (a python `lim` pair). -/
abbrev Lim := ℤ × ℤ

/-- A writhe matrix entry function (size is passed separately). -/
abbrev WMat := ℕ → ℕ → ℚ

/-- Effective bound of a python slice index `i` on an axis of length `N`:
negative indices wrap around, and bounds are clamped to `[0, N]`. -/
def pyIdx (N : ℕ) (i : ℤ) : ℕ :=
  if i < 0 then (i + N).toNat else min i.toNat N

/-- Sum of `f s + f (s+1) + ... + f (s+n-1)`. -/
def sumN (f : ℕ → ℚ) : ℕ → ℕ → ℚ
  | _, 0 => 0
  | s, n + 1 => f s + sumN f (s + 1) n

/-- `np.sum(WM[r0:r1, c0:c1])` with python slice semantics. -/
def sliceSum (wm : WMat) (N : ℕ) (r0 r1 c0 c1 : ℤ) : ℚ :=
  let a := pyIdx N r0
  let b := pyIdx N r1
  let c := pyIdx N c0
  let d := pyIdx N c1
  sumN (fun i => sumN (fun j => wm i j) c (d - c)) a (b - a)

/-- `np.sum(WM[x1:x2+1, y1:y2+1])`, the sum over an inclusive rectangle. -/
def rectSum (wm : WMat) (N : ℕ) (x1 x2 y1 y2 : ℤ) : ℚ :=
  sliceSum wm N x1 (x2 + 1) y1 (y2 + 1)

/-- `_cal_branch_writhe(WM, *branch)`. -/
def calBranchWrithe (wm : WMat) (N : ℕ) (b : Branch) : ℚ :=
  rectSum wm N b.x1 b.x2 b.y1 b.y2

/-- `np.sum(WM[i, :])`. -/
def rowSumW (wm : WMat) (N : ℕ) (i : ℕ) : ℚ :=
  sumN (wm i) 0 N

/-- `np.argmax(WM[i, :])`: the first index attaining the row maximum. -/
def argmaxRow (wm : WMat) (N : ℕ) (i : ℕ) : ℕ :=
  (List.range N).foldl (fun best j => if wm i best < wm i j then j else best) 0

/-- `_is_downstream(a1, a2, b1, b2)`. -/
abbrev isDownstream (a1 a2 b1 b2 : ℤ) : Prop :=
  a1 ≤ b1 ∧ b1 ≤ a2 ∧ a1 ≤ b2 ∧ b2 ≤ a2

/-- A candidate pair row `[x, y, summed, weight]` (the persistent flag column of
`_find_pairs` is represented by membership in the output list). -/
structure PairR where
  x : ℤ
  y : ℤ
  summed : ℚ
  w : ℚ
deriving DecidableEq, Repr, Inhabited

/-- Stable insertion of a pair into a list sorted by `x` (inserted after equal keys). -/
def insertByX (p : PairR) : List PairR → List PairR
  | [] => [p]
  | q :: l => if q.x ≤ p.x then q :: insertByX p l else p :: q :: l

/-- Stable sort by the `x` component.  `np.argsort` uses an unstable quicksort; for
the concrete inputs appearing in theorems below all sort keys are distinct, so the
choice of a stable sort is immaterial there. -/
def sortByX (l : List PairR) : List PairR :=
  l.foldl (fun acc p => insertByX p acc) []

/-- `_find_pairs(WM, minwr_per_seg)`: one candidate per row with
`rowSum > minwr_per_seg`, mirrored into the upper triangle, sorted by `x`. -/
def findPairs (wm : WMat) (N : ℕ) (mwps : ℚ) : List PairR :=
  sortByX ((List.range N).filterMap (fun i =>
    let summed := rowSumW wm N i
    let j := argmaxRow wm N i
    if mwps < summed then
      some (if (j : ℤ) < (i : ℤ) then ⟨j, i, summed, wm i j * 2⟩
            else ⟨i, j, summed, wm i j * 2⟩)
    else none))

/-! ## Tracer builder (`_find_branches`, pair-chaining part) -/

/-- An open tracer: its accumulated pairs and its `xlim`/`ylim` bounding box. -/
structure TracerB where
  pts : List PairR
  xlo : ℤ
  xhi : ℤ
  ylo : ℤ
  yhi : ℤ
deriving DecidableEq, Repr, Inhabited

/-- The connectivity test of the tracer loop: the pair's `x` is at most
`connect_segs` ahead of the tracer's `xlim[1]`, and its `y` is within
`connect_segs` of either `ylim` bound or inside the `ylim` interval. -/
abbrev tMatch (cs : ℤ) (p : PairR) (t : TracerB) : Prop :=
  p.x - t.xhi ≤ cs ∧
    (|t.ylo - p.y| ≤ cs ∨ |p.y - t.yhi| ≤ cs ∨ (t.ylo ≤ p.y ∧ p.y ≤ t.yhi))

/-- One step of the tracer-selection scan, threading
`(largest_match_id, largest_match_len)`.  A matching tracer replaces the current
selection when its pair count exceeds `largest_match_len`, and the length is then
updated to `len(tracer[0])`, which is the constant 5 (the width of a stored numpy
pair row), not the tracer's pair count. -/
def selStep (cs : ℤ) (p : PairR) (st : ℤ × ℕ) (it : ℕ × TracerB) : ℤ × ℕ :=
  if tMatch cs p it.2 then
    if st.2 < it.2.pts.length then (it.1, 5) else st
  else st

/-- The tracer-selection scan over all open tracers. -/
def selectTracer (cs : ℤ) (p : PairR) (ts : List TracerB) : ℤ × ℕ :=
  ts.enum.foldl (selStep cs p) (-1, 0)

/-- Processing of one candidate pair: append to the selected tracer (updating its
bounds: `xlim[1] := x`, `ylim` grown to include `y`), or open a new tracer. -/
def tracerStep (cs : ℤ) (ts : List TracerB) (p : PairR) : List TracerB :=
  let s := selectTracer cs p ts
  if s.2 = 0 then ts ++ [⟨[p], p.x, p.x, p.y, p.y⟩]
  else
    let i := s.1.toNat
    let t := ts.getD i default
    ts.set i ⟨t.pts ++ [p], t.xlo, p.x, min t.ylo p.y, max t.yhi p.y⟩

/-- The full tracer-building pass over the sorted pair list. -/
def buildTracers (cs : ℤ) (ps : List PairR) : List TracerB :=
  ps.foldl (tracerStep cs) []

/-! ## Tracer bands and the branch classifier (`_find_branches`, second part) -/

/-- A tracer band: for each `x` of the tracer's `xlim`, a representative `y`
(interpolated values are fractional, hence `ℚ`). -/
abbrev Band := List (ℤ × ℚ)

/-- For a fixed `x`, the `y` of the accumulated pair with the largest weight
(first maximum, as `np.argmax`), if any pair sits at that `x`. -/
def bandPick (t : TracerB) (x : ℤ) : Option ℚ :=
  match t.pts.filter (fun q => q.x = x) with
  | [] => none
  | q :: l => some (((q :: l).foldl (fun best r => if best.w < r.w then r else best) q).y)

/-- The raw band: chosen `y` where a pair exists, else the clamped `ylim` bound at
the two ends and the gap marker `-1` in the interior. -/
def rawBand (t : TracerB) : Band :=
  (List.range (t.xhi - t.xlo + 1).toNat).map (fun j =>
    let x := t.xlo + j
    match bandPick t x with
    | some y => (x, y)
    | none =>
      if j = 0 then (x, (t.yhi : ℚ))
      else if x = t.xhi then (x, (t.ylo : ℚ))
      else (x, -1))

/-- Linear interpolation between two set positions `s < s'` of the band. -/
def interpFill (band : Band) (s s' : ℕ) : Band :=
  if s + 1 < s' then
    let v1 := (band.getD s default).2
    let v2 := (band.getD s' default).2
    let num : ℤ := (s' : ℤ) - (s : ℤ)
    (List.range (s' - s - 1)).foldl (fun b ip =>
      b.set (s + ip + 1)
        ((b.getD (s + ip + 1) default).1, v1 + ((ip : ℚ) + 1) * ((v2 - v1) / num))) band
  else band

/-- Interpolate every interior gap between consecutive set positions. -/
def interpAll (band : Band) : Band :=
  let sv := (band.enum.filter (fun e => e.2.2 ≠ -1)).map (fun e => e.1)
  (sv.zip sv.tail).foldl (fun b e => interpFill b e.1 e.2) band

/-- The tracer band of `_find_branches`. -/
def mkBand (t : TracerB) : Band :=
  interpAll (rawBand t)

/-- `_find_branches(WM, min_writhe_density, disc_len, connect_dist, om0)`:
build tracers from the candidate pairs, then promote to branches those whose
bounding-box writhe density reaches `min_writhe_density`; `conv` is the
precomputed factor `2*pi/om0`. -/
def findBranches (wm : WMat) (N : ℕ) (mwd dl cd conv : ℚ) :
    List Branch × List Band :=
  let cs : ℤ := ⌈cd / dl⌉
  let mwps := dl * (mwd / conv)
  let ts := buildTracers cs (findPairs wm N mwps)
  ts.foldl (fun acc t =>
    let wr := rectSum wm N t.xlo t.xhi t.ylo t.yhi * 2
    let lp := (max (t.xhi - t.xlo + 1) (t.yhi - t.ylo + 1) : ℚ) * dl
    let wrdens := conv * wr / lp
    if wrdens < mwd then acc
    else (acc.1 ++ [⟨t.xlo, t.xhi, t.ylo, t.yhi⟩], acc.2 ++ [mkBand t])) ([], [])

/-! ## Overlap resolver (`_remove_branch_overlap`, `_remove_branchpair_overlap`) -/

/-- Scenario 1 of `_remove_branchpair_overlap` (partial overlap): writhe is
compared over the overlap columns `[ylima[0], ylimb[1]]`; the loser is truncated
at the overlap edge.  `rev` undoes the role swap of cases 2 and 4. -/
def scen1 (wm : WMat) (N : ℕ) (xa ya xb yb : Lim) (rev : Bool) : Lim × Lim :=
  let a := ya.1
  let b := yb.2
  let wra := sliceSum wm N xa.1 (xa.2 + 1) a (b + 1)
  let wrb := sliceSum wm N xb.1 (xb.2 + 1) a (b + 1)
  let r := if wrb ≤ wra then (ya, (yb.1, a - 1)) else ((b + 1, ya.2), yb)
  if rev then (r.2, r.1) else r

/-- Scenario 2 of `_remove_branchpair_overlap` (full nesting): writhe is compared
over the two full rectangles; the loser's interval is emptied. -/
def scen2 (wm : WMat) (N : ℕ) (xa ya xb yb : Lim) (rev : Bool) : Lim × Lim :=
  let wra := sliceSum wm N xa.1 (xa.2 + 1) ya.1 (ya.2 + 1)
  let wrb := sliceSum wm N xb.1 (xb.2 + 1) yb.1 (yb.2 + 1)
  let r := if wrb ≤ wra then (ya, (yb.1, yb.1 - 1)) else ((ya.1, ya.1 - 1), yb)
  if rev then (r.2, r.1) else r

/-- `_remove_branchpair_overlap(WM, xlim1, xlim2, ylim1, ylim2)`, returning the
updated `(ylim1, ylim2)`.  The python code assigns the case variables by four
sequential `if`s, so a later case overrides an earlier one; only cases 1 and 2
can hold simultaneously (exactly when `ylim1 = ylim2`), so dispatching in the
order 4, 3, 2, 1 reproduces the assignment.  When the overlap gate passes and no
case matches, the python code would raise `NameError` (`xlima` unassigned); that
situation is arithmetically impossible (see `rbpo_cases_total`), and the final
branch below is dead code returning the inputs unchanged. -/
def rbpo (wm : WMat) (N : ℕ) (xlim1 xlim2 ylim1 ylim2 : Lim) : Lim × Lim :=
  let l1 := ylim1
  let l2 := ylim2
  if l1.2 < l2.1 ∨ l2.2 < l1.1 then (ylim1, ylim2)
  else if l1.2 < l2.2 ∧ l2.1 < l1.1 then
    scen2 wm N xlim2 ylim2 xlim1 ylim1 true
  else if l2.2 < l1.2 ∧ l1.1 < l2.1 then
    scen2 wm N xlim1 ylim1 xlim2 ylim2 false
  else if l2.1 ≤ l1.2 ∧ l1.2 ≤ l2.2 ∧ l1.1 ≤ l2.1 then
    scen1 wm N xlim2 ylim2 xlim1 ylim1 true
  else if l1.1 ≤ l2.2 ∧ l2.2 ≤ l1.2 ∧ l2.1 ≤ l1.1 then
    scen1 wm N xlim1 ylim1 xlim2 ylim2 false
  else (ylim1, ylim2)

/-- The four `_remove_branchpair_overlap` calls performed on a branch pair inside
`_remove_branch_overlap`, with the python in-place view updates threaded
functionally. -/
def processPair (wm : WMat) (N : ℕ) (b1 b2 : Branch) : Branch × Branch :=
  let x1 : Lim := (b1.x1, b1.x2)
  let y1 : Lim := (b1.y1, b1.y2)
  let x2 : Lim := (b2.x1, b2.x2)
  let y2 : Lim := (b2.y1, b2.y2)
  let r1 := rbpo wm N x1 x2 y1 y2
  let y1 := r1.1
  let y2 := r1.2
  let r2 := rbpo wm N y1 x2 x1 y2
  let x1 := r2.1
  let y2 := r2.2
  let r3 := rbpo wm N x1 y2 y1 x2
  let y1 := r3.1
  let x2 := r3.2
  let r4 := rbpo wm N y1 y2 x1 x2
  let x1 := r4.1
  let x2 := r4.2
  (⟨x1.1, x1.2, y1.1, y1.2⟩, ⟨x2.1, x2.2, y2.1, y2.2⟩)

/-- The inner loop of `_remove_branch_overlap`: resolve branch `b` against every
later branch in turn, skipping those with an invalid `ylim`. -/
def resolveAgainst (wm : WMat) (N : ℕ) : Branch → List Branch → Branch × List Branch
  | b, [] => (b, [])
  | b, c :: rest =>
    if c.y2 < c.y1 then
      let r := resolveAgainst wm N b rest
      (r.1, c :: r.2)
    else
      let p := processPair wm N b c
      let r := resolveAgainst wm N p.1 rest
      (r.1, p.2 :: r.2)

theorem resolveAgainst_snd_length (wm : WMat) (N : ℕ) (b : Branch) (l : List Branch) :
    (resolveAgainst wm N b l).2.length = l.length := by
  induction l generalizing b with
  | nil => rfl
  | cons c rest ih =>
    unfold resolveAgainst
    split
    · simp [ih]
    · simp [ih]

/-- The double loop of `_remove_branch_overlap` (an outer branch with an invalid
`ylim` skips its whole inner loop), written with an explicit structural fuel;
`resolveAgainst` preserves the length of the remainder, so fuel equal to the
list length never runs out. -/
def rboLoopF (wm : WMat) (N : ℕ) : ℕ → List Branch → List Branch
  | 0, bs => bs
  | _ + 1, [] => []
  | fuel + 1, b :: rest =>
    if b.y2 < b.y1 then b :: rboLoopF wm N fuel rest
    else
      let r := resolveAgainst wm N b rest
      r.1 :: rboLoopF wm N fuel r.2

/-- The double loop of `_remove_branch_overlap`. -/
def rboLoop (wm : WMat) (N : ℕ) (bs : List Branch) : List Branch :=
  rboLoopF wm N bs.length bs

theorem rboLoop_nil (wm : WMat) (N : ℕ) : rboLoop wm N [] = [] := rfl

theorem rboLoop_cons (wm : WMat) (N : ℕ) (b : Branch) (rest : List Branch) :
    rboLoop wm N (b :: rest) =
      if b.y2 < b.y1 then b :: rboLoop wm N rest
      else
        let r := resolveAgainst wm N b rest
        r.1 :: rboLoop wm N r.2 := by
  show rboLoopF wm N (rest.length + 1) (b :: rest) = _
  unfold rboLoopF
  split
  · rfl
  · simp only [rboLoop, resolveAgainst_snd_length]

/-- The final pass of `_remove_branch_overlap`: a branch whose `ylim` or `xlim`
is inverted is flagged with the sentinel `x1 = -1`. -/
def flagInvalid (b : Branch) : Branch :=
  if b.y2 < b.y1 ∨ b.x2 < b.x1 then { b with x1 := -1 } else b

/-- `_remove_branch_overlap(WM, branches)`. -/
def removeBranchOverlap (wm : WMat) (N : ℕ) (bs : List Branch) : List Branch :=
  (rboLoop wm N bs).map flagInvalid

/-- The branch component of `_remove_flagged_branches`. -/
def removeFlaggedB (bs : List Branch) : List Branch :=
  bs.filter (fun b => b.x1 ≠ -1)

/-! ## Conflict resolver (`_resolve_inconsistent_branches`)

The `downstream_counts` block of the source computes a list that is never read
afterwards; as dead code it is not modelled. -/

/-- One outer iteration (index `i`) of `_resolve_inconsistent_branches`:
accumulate the writhe and indices of earlier still-valid branches whose `x1,y2`
range strictly contains this branch's entry point without it being downstream,
then flag the losing side — but only when the accumulated writhe is positive. -/
def conflictStep (wm : WMat) (N : ℕ) (bs : List Branch) (i : ℕ) : List Branch :=
  let bi := bs.getD i default
  let a1 := bi.x1
  let a2 := bi.y2
  let acc := (List.range i).foldl (fun (acc : ℚ × List ℕ) j =>
    let bj := bs.getD j default
    if bj.x1 = -1 then acc
    else if bj.x1 < a1 ∧ a1 < bj.y2 ∧ ¬ isDownstream bj.x1 bj.y2 a1 a2 then
      (acc.1 + calBranchWrithe wm N bj, acc.2 ++ [j])
    else acc) (0, [])
  if 0 < acc.1 then
    if acc.1 < calBranchWrithe wm N bi then
      acc.2.foldl (fun bs' j => bs'.set j { bs'.getD j default with x1 := -1 }) bs
    else bs.set i { bi with x1 := -1 }
  else bs

/-- `_resolve_inconsistent_branches(WM, branches)`. -/
def resolveInconsistent (wm : WMat) (N : ℕ) (bs : List Branch) : List Branch :=
  (List.range' 1 (bs.length - 1)).foldl (conflictStep wm N) bs

/-! ## Branch combiner (`_combine_branches`, `_can_connect_downstream_branches`) -/

/-- `_can_connect_downstream_branches(a1, a2, b1, b2, WM, minwr_per_seg)`.
The second component records whether the divisor `num_segs` was zero at the
division: numpy evaluates `wr / 0` to `inf` or `nan` with a warning, while in `ℚ`
the quotient is `0`; no theorem below relies on the first component in that
case. -/
def canConnect (a1 a2 b1 b2 : ℤ) (wm : WMat) (N : ℕ) (mwps : ℚ) : Bool × Bool :=
  if isDownstream a1 a2 b1 b2 then
    let wr := sliceSum wm N a1 b1 (b2 + 1) (a2 + 1)
      + sliceSum wm N a1 b1 0 (b2 + 1)
      + sliceSum wm N b1 N (b2 + 1) (a2 + 1)
    let ns := max (b1 - a1) (a2 - b2)
    (decide (mwps < wr / (ns : ℚ)), decide (ns = 0))
  else (false, false)

/-- State of the combiner: composite rectangles, their contained branch ids, and
an instrumentation bit recording whether any `_can_connect_downstream_branches`
call divided by zero. -/
structure CombSt where
  comb : List Branch
  ids : List (List ℕ)
  divzero : Bool
deriving DecidableEq, Repr

/-- Find the first composite that branch `i` (with record `br`) is downstream of
and update it, mirroring the inner loop of `_combine_branches`.  In the
connectivity-failed case the source executes `plec = branches[i]`, which rebinds
the python loop variable only and leaves `combbranch[j]` unchanged; both arms of
that comparison therefore return the composite unmodified. -/
def combFind (wm : WMat) (N : ℕ) (mwps : ℚ) (br : Branch) (i : ℕ) :
    List Branch → List (List ℕ) → Option (List Branch × List (List ℕ) × Bool)
  | [], _ => none
  | _ :: _, [] => none
  | plec :: rest, is0 :: irest =>
    if isDownstream plec.x1 plec.y2 br.x1 br.y2 then
      let is1 := is0 ++ [i]
      if isDownstream plec.x2 plec.y1 br.x1 br.y2 then
        let cc := canConnect plec.x1 plec.y2 br.x1 br.y2 wm N mwps
        if cc.1 then
          some ({ plec with x2 := max plec.x2 br.x2, y1 := min plec.y1 br.y1 } :: rest,
            is1 :: irest, cc.2)
        else
          if calBranchWrithe wm N plec < calBranchWrithe wm N br then
            some (plec :: rest, is1 :: irest, cc.2)
          else
            some (plec :: rest, is1 :: irest, cc.2)
      else
        some ({ plec with x2 := max plec.x2 br.x2, y1 := min plec.y1 br.y1 } :: rest,
          is1 :: irest, false)
    else
      (combFind wm N mwps br i rest irest).map (fun r => (plec :: r.1, is0 :: r.2.1, r.2.2))

/-- One step of `_combine_branches` over branch `(i, br)`. -/
def combineStep (wm : WMat) (N : ℕ) (mwps : ℚ) (st : CombSt) (ib : ℕ × Branch) : CombSt :=
  match combFind wm N mwps ib.2 ib.1 st.comb st.ids with
  | some r => ⟨r.1, r.2.1, st.divzero || r.2.2⟩
  | none => ⟨st.comb ++ [ib.2], st.ids ++ [[ib.1]], st.divzero⟩

/-- `_combine_branches(WM, branches, min_writhe_density, disc_len, om0)` with
`conv = 2*pi/om0` precomputed. -/
def combineBranches (wm : WMat) (N : ℕ) (bs : List Branch) (mwd dl conv : ℚ) : CombSt :=
  let mwps := dl * (mwd / conv)
  bs.enum.foldl (combineStep wm N mwps) ⟨[], [], false⟩

/-! ## Plectoneme definer (`_define_plecs`) -/

/-- An emitted plectoneme row
`[id1, id2, wrdens, wr, num_segs, wr_tot, candidate_index]`. -/
structure PlecR where
  id1 : ℤ
  id2 : ℤ
  wrdens : ℚ
  wr : ℚ
  numSegs : ℤ
  wrTot : ℚ
  idx : ℕ
deriving DecidableEq, Repr

/-- `_define_plecs(WM, combbranches, min_writhe_density, min_writhe, disc_len, om0)`
with `conv = 2*pi/om0` precomputed. -/
def definePlecs (wm : WMat) (N : ℕ) (comb : List Branch) (mwd pmw dl conv : ℚ) :
    List PlecR :=
  let wrTot := sliceSum wm N 0 N 0 N
  let cands := removeBranchOverlap wm N
    (comb.map (fun c => Branch.mk c.x1 c.y2 c.x1 c.y2))
  cands.enum.foldl (fun acc ic =>
    let c := ic.2
    let wr := calBranchWrithe wm N c
    let ns := c.x2 - c.x1 + 1
    let lp := (ns : ℚ) * dl
    if lp ≤ 0 then acc
    else
      let wrdens := conv * wr / lp
      if mwd ≤ wrdens ∧ pmw ≤ wr then
        acc ++ [⟨c.x1, c.x2, wrdens, wr, ns, wrTot, ic.1⟩]
      else acc) []

/-! ## The full `find_plecs` pipeline

`find_plecs` receives a 3D configuration and obtains the writhe matrix from the
external `pylk.writhemap` primitive (out of scope per the specification); the
model takes the matrix `wm` directly, together with the discretization length
`dl` (the `disc_len is None` branch calls the out-of-scope geometry estimator).
`unify_branches` relies on `build_branchtree` from the `branching` module, which
is not part of the analysed sources; its net effect on the branch list (flagging
some merged pieces with `x1 = -1` in place) is abstracted as a function
parameter `unify`. -/

/-- `np.sign` on rationals. -/
def qsign (x : ℚ) : ℚ :=
  if 0 < x then 1 else if x < 0 then -1 else 0

/-- The filtering of `_remove_flagged_branches` over parallel branch/band lists. -/
def removeFlaggedPairs (bs : List Branch) (ts : List Band) : List Branch × List Band :=
  ((bs.zip ts).filter (fun e => e.1.x1 ≠ -1)).unzip

/-- A `plecs[]` entry of the output topology. -/
structure PlecDict where
  id1 : ℤ
  id2 : ℤ
  wrdens : ℚ
  wr : ℚ
  numSegs : ℤ
  len : ℚ
  branchIds : List ℕ
deriving DecidableEq, Repr

/-- A `branches[]` entry of the output topology. -/
structure BranchDict where
  id : ℕ
  x1 : ℤ
  x2 : ℤ
  y1 : ℤ
  y2 : ℤ
  wr : ℚ
  wrDown : ℚ
deriving DecidableEq, Repr

/-- A `tracers[]` entry of the output topology. -/
structure TracerDict where
  id : ℕ
  points : Band
deriving DecidableEq, Repr

/-- The output topology record. -/
structure Topol where
  n : ℕ
  len : ℚ
  discLen : ℚ
  plecs : List PlecDict
  branches : List BranchDict
  tracers : List TracerDict
  wr : ℚ
  numPlecs : ℕ
  numBranches : ℕ
  numTracers : ℕ
  noOverlap : Bool
deriving DecidableEq, Repr

/-- The detection stages of `find_plecs`, operating on the sign-normalized
matrix: branch finding, overlap removal, conflict resolution, combination,
plectoneme definition, and the restriction of branches/tracers to those
contained in emitted plectonemes.  Returns (branches, tracers, plecs,
plec_branch_ids). -/
def detectAll (pwm : WMat) (N : ℕ) (mwd pmw dl cd conv : ℚ) (noOverlap : Bool) :
    List Branch × List Band × List PlecR × List (List ℕ) :=
  let fb := findBranches pwm N mwd dl cd conv
  let branches := fb.1
  let tracers := fb.2
  if 0 < branches.length then
    let bt :=
      if noOverlap then
        removeFlaggedPairs (removeBranchOverlap pwm N branches) tracers
      else (branches, tracers)
    let bt2 := removeFlaggedPairs (resolveInconsistent pwm N bt.1) bt.2
    let cb := combineBranches pwm N bt2.1 mwd dl conv
    let plecs := definePlecs pwm N cb.comb mwd pmw dl conv
    let pbids := plecs.map (fun p => cb.ids.getD p.idx [])
    let branches' := (pbids.flatten).map (fun i => bt2.1.getD i default)
    let tracers' := (pbids.flatten).map (fun i => bt2.2.getD i default)
    (branches', tracers', plecs, pbids)
  else ([], [], [], [])

/-- The topology assembly of `find_plecs` (its tail after the detection stages):
unification flags, final filtering, and the output dictionaries.  The branch
writhe fields are computed from the raw matrix `wm`, everything else from the
detection results.  The lower-triangle branch warning is a log line and has no
effect on the output. -/
def assemble (wm : WMat) (N : ℕ) (dl : ℚ) (noOverlap : Bool)
    (unify : List Branch → List Branch)
    (det : List Branch × List Band × List PlecR × List (List ℕ)) : Topol :=
  let bt := removeFlaggedPairs (unify det.1) det.2.1
  let plecdicts := det.2.2.1.enum.map (fun ip =>
    PlecDict.mk ip.2.id1 ip.2.id2 ip.2.wrdens ip.2.wr ip.2.numSegs
      ((ip.2.numSegs : ℚ) * dl) (det.2.2.2.getD ip.1 []))
  let branchdicts := bt.1.enum.map (fun ib =>
    BranchDict.mk ib.1 ib.2.x1 ib.2.x2 ib.2.y1 ib.2.y2
      (2 * calBranchWrithe wm N ib.2)
      (rectSum wm N ib.2.x1 ib.2.y2 ib.2.x1 ib.2.y2))
  let tracerdicts := bt.2.enum.map (fun it => TracerDict.mk it.1 it.2)
  { n := N
    len := (N : ℚ) * dl
    discLen := dl
    plecs := plecdicts
    branches := branchdicts
    tracers := tracerdicts
    wr := sliceSum wm N 0 N 0 N
    numPlecs := plecdicts.length
    numBranches := branchdicts.length
    numTracers := tracerdicts.length
    noOverlap := noOverlap }

/-- `find_plecs` on a precomputed writhe matrix: sign-normalize, detect, and
assemble.  `piQ` stands for `np.pi`. -/
def findPlecsModel (wm : WMat) (N : ℕ) (mwd pmw dl cd om0 piQ : ℚ)
    (noOverlap : Bool) (unify : List Branch → List Branch) : Topol :=
  let conv := 2 * piQ / om0
  let mean := sliceSum wm N 0 N 0 N / ((N : ℚ) * (N : ℚ))
  let pwm : WMat := fun i j => qsign mean * wm i j
  assemble wm N dl noOverlap unify (detectAll pwm N mwd pmw dl cd conv noOverlap)

/-! ## Concrete instances used by counterexamples and witnesses -/

/-- The zero writhe matrix (every writhe comparison ties exactly). -/
def zeroWM : WMat := fun _ _ => 0

/-- A 16×16 writhe matrix (symmetric, zero boundary) whose detection run drives
a lower-triangle composite candidate into the sentinel-flag path of the
plectoneme definer.  The negative diagonal entries suppress the mirror rows so
that all candidate pairs have distinct `x` (making the unstable `np.argsort`
order irrelevant). -/
def c6wm : WMat := fun i j =>
  if (i = 1 ∧ j = 6) ∨ (i = 6 ∧ j = 1) then 1
  else if (i = 2 ∧ j = 10) ∨ (i = 10 ∧ j = 2) then 1
  else if (i = 3 ∧ j = 14) ∨ (i = 14 ∧ j = 3) then 4
  else if (i = 4 ∧ j = 6) ∨ (i = 6 ∧ j = 4) then 2
  else if (i = 5 ∧ j = 10) ∨ (i = 10 ∧ j = 5) then 1
  else if i = 6 ∧ j = 6 then -4
  else if i = 10 ∧ j = 10 then -3
  else if i = 14 ∧ j = 14 then -5
  else 0

/-- The writhe matrix of the Branch Combiner code-bug run: a single unit of
writhe inside the second branch's rectangle and nothing else. -/
def c2wm : WMat := fun i j =>
  if i = 3 ∧ j = 4 then 1 else 0

/-- A symmetric 6×6 matrix with one interacting segment pair, used to exercise
the full pipeline on both signs. -/
def c10wm : WMat := fun i j =>
  if (i = 2 ∧ j = 3) ∨ (i = 3 ∧ j = 2) then 1 else 0

/-! ## Claim theorems: concrete counterexamples and evaluations -/

/-- C1 (counterexample): the Overlap Resolver is not idempotent on its raw
output.  On the zero matrix and the branch list
`[[2,1,3,4], [0,0,7,8]]`, the first application flags the first branch
(`x1 := -1`); on the second application that sentinel value re-validates the
first branch's `xlim` as `[-1,1]`, which now overlaps the second branch's
`xlim` `[0,0]` and truncates it, so the second application changes a branch
record. -/
theorem C1_counterexample :
    removeBranchOverlap zeroWM 10
        (removeBranchOverlap zeroWM 10 [⟨2, 1, 3, 4⟩, ⟨0, 0, 7, 8⟩])
      ≠ removeBranchOverlap zeroWM 10 [⟨2, 1, 3, 4⟩, ⟨0, 0, 7, 8⟩] := by
  with_unfolding_all decide

/-- C2 (code bug, evaluation): in `_combine_branches`, branch `[2,3,4,5]` is
downstream of the composite `[1,2,5,6]`'s outer corners `(1,6)` and of its
opposite corners `(2,5)`, the bridging connectivity fails
(`minwr_per_seg = 1·3/3 = 1`), and the branch's raw writhe `1` strictly exceeds
the composite's `0` — yet the stored composite rectangle remains `[1,2,5,6]`,
because `plec = branches[i]` only rebinds the python loop variable.  The
specification says the higher-writhe rectangle should be retained. -/
theorem C2_code_bug_eval :
    isDownstream (1 : ℤ) 6 2 5 ∧
    isDownstream (2 : ℤ) 5 2 5 ∧
    (canConnect 1 6 2 5 c2wm 8 1).1 = false ∧
    calBranchWrithe c2wm 8 ⟨1, 2, 5, 6⟩ < calBranchWrithe c2wm 8 ⟨2, 3, 4, 5⟩ ∧
    (combineBranches c2wm 8 [⟨1, 2, 5, 6⟩, ⟨2, 3, 4, 5⟩] 3 1 3).comb
      = [⟨1, 2, 5, 6⟩] := by
  with_unfolding_all decide

/-- C3 (counterexample): with `connect_segs = 10`, after the pairs
`(1,10), (2,25), (3,26)` the pair `(4,18)` matches both open tracers; the
second tracer holds two pairs while the first holds one, yet the pair is
appended to the first tracer, because the scan stores `len(tracer[0]) = 5` as
the best length and `2 > 5` fails. -/
theorem C3_counterexample :
    tMatch 10 ⟨4, 18, 1, 1⟩
        ((buildTracers 10 [⟨1, 10, 1, 1⟩, ⟨2, 25, 1, 1⟩, ⟨3, 26, 1, 1⟩]).getD 0 default) ∧
    tMatch 10 ⟨4, 18, 1, 1⟩
        ((buildTracers 10 [⟨1, 10, 1, 1⟩, ⟨2, 25, 1, 1⟩, ⟨3, 26, 1, 1⟩]).getD 1 default) ∧
    ((buildTracers 10 [⟨1, 10, 1, 1⟩, ⟨2, 25, 1, 1⟩, ⟨3, 26, 1, 1⟩]).getD 0 default).pts.length
      < ((buildTracers 10 [⟨1, 10, 1, 1⟩, ⟨2, 25, 1, 1⟩, ⟨3, 26, 1, 1⟩]).getD 1 default).pts.length ∧
    ((buildTracers 10 [⟨1, 10, 1, 1⟩, ⟨2, 25, 1, 1⟩, ⟨3, 26, 1, 1⟩, ⟨4, 18, 1, 1⟩]).getD 0
        default).pts = [⟨1, 10, 1, 1⟩, ⟨4, 18, 1, 1⟩] ∧
    ((buildTracers 10 [⟨1, 10, 1, 1⟩, ⟨2, 25, 1, 1⟩, ⟨3, 26, 1, 1⟩, ⟨4, 18, 1, 1⟩]).getD 1
        default).pts = [⟨2, 25, 1, 1⟩, ⟨3, 26, 1, 1⟩] := by
  with_unfolding_all decide

/-- C4 (counterexample): on the zero matrix every writhe comparison is an exact
tie, yet `_remove_branch_overlap` on `[[1,2,3,5], [1,2,4,6]]` truncates and then
flags the FIRST-listed branch while the second is kept fully intact — the
`ylim` overlap is a case-2 configuration whose `a` role is the second branch,
and ties favour `a`. -/
theorem C4_counterexample :
    ((removeBranchOverlap zeroWM 10 [⟨1, 2, 3, 5⟩, ⟨1, 2, 4, 6⟩]).getD 0 default
        ≠ Branch.mk 1 2 3 5) ∧
    (removeBranchOverlap zeroWM 10 [⟨1, 2, 3, 5⟩, ⟨1, 2, 4, 6⟩]).getD 1 default
      = Branch.mk 1 2 4 6 := by
  with_unfolding_all decide

/-- C5 (counterexample): branch 1 = `[2,2,2,6]` has a genuine backward conflict
with branch 0 = `[1,1,1,5]` (its entry `2` lies strictly inside `(1,5)` and it
is not downstream), and its writhe does not exceed the conflicting writhe (both
are `0` on the zero matrix), so by the claim branch 1 should be flagged; the
code's `conflict_wr > 0` guard makes the resolver leave both branches
untouched. -/
theorem C5_counterexample :
    ((1 : ℤ) < 2 ∧ (2 : ℤ) < 5 ∧ ¬ isDownstream (1 : ℤ) 5 2 6) ∧
    ¬ (calBranchWrithe zeroWM 10 ⟨1, 1, 1, 5⟩ < calBranchWrithe zeroWM 10 ⟨2, 2, 2, 6⟩) ∧
    resolveInconsistent zeroWM 10 [⟨1, 1, 1, 5⟩, ⟨2, 2, 2, 6⟩]
      = [⟨1, 1, 1, 5⟩, ⟨2, 2, 2, 6⟩] := by
  with_unfolding_all decide

/-- C9: the zero-divisor call is reachable.  Two identical degenerate branches
`[2,2,3,3]` make `_combine_branches` call `_can_connect_downstream_branches`
with `a1 = b1 = 2` and `a2 = b2 = 3`, so `num_segs = max(b1-a1, a2-b2) = 0` and
`wr / num_segs` divides by zero (the instrumentation bit records the event). -/
theorem C9_divzero_reachable :
    (combineBranches zeroWM 10 [⟨2, 2, 3, 3⟩, ⟨2, 2, 3, 3⟩] 0 1 3).divzero = true := by
  with_unfolding_all decide

set_option maxRecDepth 8000 in
/-- C6 (counterexample): on the boundary-zeroed matrix `c6wm` with the legal
parameters `min_writhe_density = 0`, `plec_min_writhe = 0`, `disc_len = 1`,
`connect_dist = 3`, `om0 = 2` and `pi` modelled as `3`, the full pipeline emits
a plectoneme record with `id1 = -1` — which as a python index denotes row
`N-1 = 15` — refuting boundary exclusion for emitted plectoneme intervals. -/
theorem C6_counterexample :
    (∀ j, j < 16 → c6wm 0 j = 0 ∧ c6wm 15 j = 0 ∧ c6wm j 0 = 0 ∧ c6wm j 15 = 0) ∧
    qsign (sliceSum c6wm 16 0 16 0 16 / ((16 : ℚ) * 16)) = 1 ∧
    (findPlecsModel c6wm 16 0 0 1 3 2 3 true id).plecs.map (fun p => (p.id1, p.id2))
      = [(-1, 4), (3, 14)] := by
  with_unfolding_all decide

/-! ## C7: emission condition of the plectoneme definer -/

theorem definePlecs_fold_eq (wm : WMat) (N : ℕ) (mwd pmw dl conv wrTot : ℚ)
    (l : List (ℕ × Branch)) (acc : List PlecR) :
    l.foldl (fun acc ic =>
      let c := ic.2
      let wr := calBranchWrithe wm N c
      let ns := c.x2 - c.x1 + 1
      let lp := (ns : ℚ) * dl
      if lp ≤ 0 then acc
      else
        let wrdens := conv * wr / lp
        if mwd ≤ wrdens ∧ pmw ≤ wr then
          acc ++ [⟨c.x1, c.x2, wrdens, wr, ns, wrTot, ic.1⟩]
        else acc) acc
      = acc ++ l.filterMap (fun ic =>
          let c := ic.2
          let wr := calBranchWrithe wm N c
          let ns := c.x2 - c.x1 + 1
          let lp := (ns : ℚ) * dl
          if 0 < lp ∧ mwd ≤ conv * wr / lp ∧ pmw ≤ wr then
            some ⟨c.x1, c.x2, conv * wr / lp, wr, ns, wrTot, ic.1⟩
          else none) := by
  induction l generalizing acc with
  | nil => simp
  | cons ic l ih =>
    simp only [List.foldl_cons, List.filterMap_cons]
    by_cases h1 : ((ic.2.x2 - ic.2.x1 + 1 : ℤ) : ℚ) * dl ≤ 0
    · have h1' : ¬ (0 < ((ic.2.x2 - ic.2.x1 + 1 : ℤ) : ℚ) * dl ∧
          mwd ≤ conv * calBranchWrithe wm N ic.2 / (((ic.2.x2 - ic.2.x1 + 1 : ℤ) : ℚ) * dl) ∧
          pmw ≤ calBranchWrithe wm N ic.2) := by
        intro hc
        exact absurd hc.1 (not_lt.mpr h1)
      simp only [if_pos h1, if_neg h1', ih]
    · have h1lt : 0 < ((ic.2.x2 - ic.2.x1 + 1 : ℤ) : ℚ) * dl := lt_of_not_le h1
      by_cases h2 : mwd ≤ conv * calBranchWrithe wm N ic.2 /
            (((ic.2.x2 - ic.2.x1 + 1 : ℤ) : ℚ) * dl) ∧ pmw ≤ calBranchWrithe wm N ic.2
      · have h2' : 0 < ((ic.2.x2 - ic.2.x1 + 1 : ℤ) : ℚ) * dl ∧
            mwd ≤ conv * calBranchWrithe wm N ic.2 / (((ic.2.x2 - ic.2.x1 + 1 : ℤ) : ℚ) * dl) ∧
            pmw ≤ calBranchWrithe wm N ic.2 := ⟨h1lt, h2⟩
        simp only [if_neg h1, if_pos h2, if_pos h2', ih, List.append_assoc,
          List.singleton_append]
      · have h2' : ¬ (0 < ((ic.2.x2 - ic.2.x1 + 1 : ℤ) : ℚ) * dl ∧
            mwd ≤ conv * calBranchWrithe wm N ic.2 / (((ic.2.x2 - ic.2.x1 + 1 : ℤ) : ℚ) * dl) ∧
            pmw ≤ calBranchWrithe wm N ic.2) := fun hc => h2 hc.2
        simp only [if_neg h1, if_neg h2, if_neg h2', ih]

/-- C7: a plectoneme record is emitted for a post-overlap candidate exactly when
its length is positive, its density `conv·wr/(num_segs·disc_len)` is at least
`min_writhe_density`, and its writhe is at least `plec_min_writhe`; candidates
failing any condition are absent from the output. -/
theorem C7_emission_iff (wm : WMat) (N : ℕ) (comb : List Branch) (mwd pmw dl conv : ℚ) :
    definePlecs wm N comb mwd pmw dl conv
      = ((removeBranchOverlap wm N
            (comb.map (fun c => Branch.mk c.x1 c.y2 c.x1 c.y2))).enum).filterMap
          (fun ic =>
            let c := ic.2
            let wr := calBranchWrithe wm N c
            let ns := c.x2 - c.x1 + 1
            let lp := (ns : ℚ) * dl
            if 0 < lp ∧ mwd ≤ conv * wr / lp ∧ pmw ≤ wr then
              some ⟨c.x1, c.x2, conv * wr / lp, wr, ns, sliceSum wm N 0 N 0 N, ic.1⟩
            else none) := by
  unfold definePlecs
  exact (definePlecs_fold_eq wm N mwd pmw dl conv (sliceSum wm N 0 N 0 N) _ []).trans
    (by simp)

/-! ## C5: declarative form of the conflict resolver -/

/-- One outer iteration of the conflict resolver, stated declaratively: collect
the set of earlier still-valid branches in genuine conflict with branch `i`, sum
their writhe, and flag the losing side — the conflicting branches when branch
`i`'s writhe strictly exceeds the sum, branch `i` otherwise — but only when the
summed conflicting writhe is positive; with a non-positive sum nothing is
flagged. -/
def conflictSpecStep (wm : WMat) (N : ℕ) (bs : List Branch) (i : ℕ) : List Branch :=
  let bi := bs.getD i default
  let conflictIds := (List.range i).filter (fun j =>
    let bj := bs.getD j default
    decide (¬ bj.x1 = -1 ∧ bj.x1 < bi.x1 ∧ bi.x1 < bj.y2 ∧
      ¬ isDownstream bj.x1 bj.y2 bi.x1 bi.y2))
  let cwr := (conflictIds.map (fun j => calBranchWrithe wm N (bs.getD j default))).sum
  if 0 < cwr then
    if cwr < calBranchWrithe wm N bi then
      conflictIds.foldl (fun bs' j => bs'.set j { bs'.getD j default with x1 := -1 }) bs
    else bs.set i { bi with x1 := -1 }
  else bs

theorem conflict_fold_eq (q : ℕ → Prop) [DecidablePred q] (w : ℕ → ℚ) (l : List ℕ)
    (c : ℚ) (ids : List ℕ) :
    l.foldl (fun acc j => if q j then (acc.1 + w j, acc.2 ++ [j]) else acc) (c, ids)
      = (c + ((l.filter (fun j => decide (q j))).map w).sum,
         ids ++ l.filter (fun j => decide (q j))) := by
  induction l generalizing c ids with
  | nil => simp
  | cons j l ih =>
    by_cases h : q j
    · simp [h, ih, add_assoc]
    · simp [h, ih]

theorem conflictStep_eq_spec (wm : WMat) (N : ℕ) (bs : List Branch) (i : ℕ) :
    conflictStep wm N bs i = conflictSpecStep wm N bs i := by
  unfold conflictStep conflictSpecStep
  simp only []
  have hbody :
      (fun (acc : ℚ × List ℕ) j =>
        if (bs.getD j default).x1 = -1 then acc
        else if (bs.getD j default).x1 < (bs.getD i default).x1 ∧
            (bs.getD i default).x1 < (bs.getD j default).y2 ∧
            ¬ isDownstream (bs.getD j default).x1 (bs.getD j default).y2
              (bs.getD i default).x1 (bs.getD i default).y2 then
          (acc.1 + calBranchWrithe wm N (bs.getD j default), acc.2 ++ [j])
        else acc)
      = fun (acc : ℚ × List ℕ) j =>
          if (¬ (bs.getD j default).x1 = -1 ∧ (bs.getD j default).x1 < (bs.getD i default).x1 ∧
              (bs.getD i default).x1 < (bs.getD j default).y2 ∧
              ¬ isDownstream (bs.getD j default).x1 (bs.getD j default).y2
                (bs.getD i default).x1 (bs.getD i default).y2) then
            (acc.1 + calBranchWrithe wm N (bs.getD j default), acc.2 ++ [j])
          else acc := by
    funext acc j
    split_ifs with h1 h2 h3 h3 <;> first | rfl | (exfalso; tauto)
  rw [hbody, conflict_fold_eq]
  simp

/-- C5 (amended): the conflict resolver equals the fold, over branch indices in
detection order, of the declarative step that flags every genuinely conflicting
earlier branch when branch `i`'s writhe strictly exceeds their positive summed
writhe, flags branch `i` when the positive sum is not exceeded, and — unlike the
original claim — leaves everything unchanged when the summed conflicting writhe
is not positive. -/
theorem C5_amended (wm : WMat) (N : ℕ) (bs : List Branch) :
    resolveInconsistent wm N bs
      = (List.range' 1 (bs.length - 1)).foldl (conflictSpecStep wm N) bs := by
  unfold resolveInconsistent
  have h : conflictStep wm N = conflictSpecStep wm N :=
    funext fun bs => funext fun i => conflictStep_eq_spec wm N bs i
  rw [h]

/-! ## C3: the actual tracer-selection rule -/

/-- A tracer (with its scan index) that matches the connectivity window and
holds at least one pair — the tracers eligible for first-match selection. -/
def isTracerMatch (cs : ℤ) (p : PairR) (it : ℕ × TracerB) : Bool :=
  decide (tMatch cs p it.2 ∧ 0 < it.2.pts.length)

/-- A matching tracer holding more than 5 pairs — `5 = len(tracer[0])`, the
stored numpy row width; only these can displace an earlier selection. -/
def isBigMatch (cs : ℤ) (p : PairR) (it : ℕ × TracerB) : Bool :=
  decide (tMatch cs p it.2 ∧ 5 < it.2.pts.length)

theorem getLast?_cons_eq {α : Type _} (a : α) (l : List α) :
    (a :: l).getLast? = match l.getLast? with
      | some x => some x
      | none => some a := by
  induction l generalizing a with
  | nil => rfl
  | cons b l _ =>
    rw [List.getLast?_cons_cons]
    cases h : (b :: l).getLast? with
    | none => simp at h
    | some x => simp [h]

theorem selStep_from5 (cs : ℤ) (p : PairR) (l : List (ℕ × TracerB)) (z : ℤ) :
    l.foldl (selStep cs p) (z, 5)
      = match (l.filter (isBigMatch cs p)).getLast? with
        | some it => ((it.1 : ℤ), 5)
        | none => (z, 5) := by
  induction l generalizing z with
  | nil => rfl
  | cons it l ih =>
    by_cases hb : isBigMatch cs p it = true
    · have hm : tMatch cs p it.2 := ((decide_eq_true_eq).mp hb).1
      have hl : 5 < it.2.pts.length := ((decide_eq_true_eq).mp hb).2
      have hstep : selStep cs p (z, 5) it = ((it.1 : ℤ), 5) := by
        simp [selStep, hm, hl]
      rw [List.foldl_cons, hstep, ih, List.filter_cons_of_pos hb, getLast?_cons_eq]
      cases h : ((l.filter (isBigMatch cs p)).getLast?) <;> simp [h]
    · have hstep : selStep cs p (z, 5) it = (z, 5) := by
        by_cases hm : tMatch cs p it.2
        · have hl : ¬ 5 < it.2.pts.length := by
            intro hc
            exact hb (decide_eq_true ⟨hm, hc⟩)
          simp [selStep, hm, hl]
        · simp [selStep, hm]
      rw [List.foldl_cons, hstep, ih, List.filter_cons_of_neg hb]

theorem selectTracer_char (cs : ℤ) (p : PairR) (ts : List TracerB) :
    selectTracer cs p ts
      = match (ts.enum.filter (isBigMatch cs p)).getLast? with
        | some it => ((it.1 : ℤ), 5)
        | none =>
          match ts.enum.find? (isTracerMatch cs p) with
          | some it => ((it.1 : ℤ), 5)
          | none => (-1, 0) := by
  unfold selectTracer
  generalize ts.enum = l
  induction l with
  | nil => rfl
  | cons it l ih =>
    by_cases hf : isTracerMatch cs p it = true
    · have hm : tMatch cs p it.2 := ((decide_eq_true_eq).mp hf).1
      have hl : 0 < it.2.pts.length := ((decide_eq_true_eq).mp hf).2
      have hstep : selStep cs p (-1, 0) it = ((it.1 : ℤ), 5) := by
        simp [selStep, hm, hl]
      rw [List.foldl_cons, hstep, selStep_from5, List.find?_cons_of_pos _ hf]
      by_cases hb : isBigMatch cs p it = true
      · rw [List.filter_cons_of_pos hb, getLast?_cons_eq]
        cases h : ((l.filter (isBigMatch cs p)).getLast?) <;> simp [h]
      · rw [List.filter_cons_of_neg hb]
    · have hstep : selStep cs p (-1, 0) it = (-1, 0) := by
        by_cases hm : tMatch cs p it.2
        · have hl : ¬ 0 < it.2.pts.length := by
            intro hc
            exact hf (decide_eq_true ⟨hm, hc⟩)
          simp [selStep, hm, hl]
        · simp [selStep, hm]
      have hb : ¬ isBigMatch cs p it = true := by
        intro hc
        have h5 := (decide_eq_true_eq).mp hc
        exact hf (decide_eq_true ⟨h5.1, Nat.lt_of_lt_of_le (by omega) (Nat.le_of_lt h5.2)⟩)
      rw [List.foldl_cons, hstep, ih, List.filter_cons_of_neg hb,
        List.find?_cons_of_neg _ hf]

/-- The append operation of the tracer loop: `xlim[1] := x`, `ylim` grown to
include `y`, pair appended. -/
def appendPairTo (ts : List TracerB) (i : ℕ) (p : PairR) : List TracerB :=
  let t := ts.getD i default
  ts.set i ⟨t.pts ++ [p], t.xlo, p.x, min t.ylo p.y, max t.yhi p.y⟩

/-- C3 (amended): a candidate pair is appended to the FIRST open tracer matching
the connectivity window, unless some later matching tracer holds more than 5
accumulated pairs (5 being `len(tracer[0])`, the numpy row width of a stored
pair), in which case the LAST such tracer receives it; only when no tracer
matches is a new tracer opened.  The selection is not by maximal accumulated
pair count. -/
theorem C3_amended (cs : ℤ) (p : PairR) (ts : List TracerB) :
    tracerStep cs ts p
      = match (ts.enum.filter (isBigMatch cs p)).getLast? with
        | some it => appendPairTo ts it.1 p
        | none =>
          match ts.enum.find? (isTracerMatch cs p) with
          | some it => appendPairTo ts it.1 p
          | none => ts ++ [⟨[p], p.x, p.x, p.y, p.y⟩] := by
  unfold tracerStep
  rw [selectTracer_char]
  cases hb : ((ts.enum.filter (isBigMatch cs p)).getLast?) with
  | some it => simp [appendPairTo]
  | none =>
    cases hf : (ts.enum.find? (isTracerMatch cs p)) with
    | some it => simp [appendPairTo]
    | none => simp

/-! ## C4: tie-break behaviour of the pairwise overlap resolution -/

/-- C4 (amended): when the compared intervals overlap and the two writhe sums of
the selected scenario are exactly equal, the branch in the `a` role of the
matched case is kept intact and the other is truncated.  The `a` role is the
first-listed branch only in cases 1 and 3; in the mirror orientations (cases 2
and 4, handled first because the python code lets later case assignments win)
the SECOND-listed branch is kept and the first-listed one is truncated or
emptied. -/
theorem C4_amended (wm : WMat) (N : ℕ) (x1 x2 l1 l2 : Lim)
    (hov : ¬ (l1.2 < l2.1 ∨ l2.2 < l1.1)) :
    ((l1.2 < l2.2 ∧ l2.1 < l1.1) →
       sliceSum wm N x1.1 (x1.2 + 1) l1.1 (l1.2 + 1)
         = sliceSum wm N x2.1 (x2.2 + 1) l2.1 (l2.2 + 1) →
       rbpo wm N x1 x2 l1 l2 = ((l1.1, l1.1 - 1), l2)) ∧
    (¬ (l1.2 < l2.2 ∧ l2.1 < l1.1) → (l2.2 < l1.2 ∧ l1.1 < l2.1) →
       sliceSum wm N x1.1 (x1.2 + 1) l1.1 (l1.2 + 1)
         = sliceSum wm N x2.1 (x2.2 + 1) l2.1 (l2.2 + 1) →
       rbpo wm N x1 x2 l1 l2 = (l1, (l2.1, l2.1 - 1))) ∧
    (¬ (l1.2 < l2.2 ∧ l2.1 < l1.1) → ¬ (l2.2 < l1.2 ∧ l1.1 < l2.1) →
       (l2.1 ≤ l1.2 ∧ l1.2 ≤ l2.2 ∧ l1.1 ≤ l2.1) →
       sliceSum wm N x1.1 (x1.2 + 1) l2.1 (l1.2 + 1)
         = sliceSum wm N x2.1 (x2.2 + 1) l2.1 (l1.2 + 1) →
       rbpo wm N x1 x2 l1 l2 = ((l1.1, l2.1 - 1), l2)) ∧
    (¬ (l1.2 < l2.2 ∧ l2.1 < l1.1) → ¬ (l2.2 < l1.2 ∧ l1.1 < l2.1) →
       ¬ (l2.1 ≤ l1.2 ∧ l1.2 ≤ l2.2 ∧ l1.1 ≤ l2.1) →
       (l1.1 ≤ l2.2 ∧ l2.2 ≤ l1.2 ∧ l2.1 ≤ l1.1) →
       sliceSum wm N x1.1 (x1.2 + 1) l1.1 (l2.2 + 1)
         = sliceSum wm N x2.1 (x2.2 + 1) l1.1 (l2.2 + 1) →
       rbpo wm N x1 x2 l1 l2 = (l1, (l2.1, l1.1 - 1))) := by
  refine ⟨fun h4 htie => ?_, fun h4 h3 htie => ?_, fun h4 h3 h2 htie => ?_,
    fun h4 h3 h2 h1 htie => ?_⟩
  · have hle : sliceSum wm N x1.1 (x1.2 + 1) l1.1 (l1.2 + 1)
        ≤ sliceSum wm N x2.1 (x2.2 + 1) l2.1 (l2.2 + 1) := htie.le
    simp [rbpo, scen2, hov, h4, hle]
  · have hle : sliceSum wm N x2.1 (x2.2 + 1) l2.1 (l2.2 + 1)
        ≤ sliceSum wm N x1.1 (x1.2 + 1) l1.1 (l1.2 + 1) := htie.ge
    simp [rbpo, scen2, hov, h4, h3, hle]
  · have hle : sliceSum wm N x1.1 (x1.2 + 1) l2.1 (l1.2 + 1)
        ≤ sliceSum wm N x2.1 (x2.2 + 1) l2.1 (l1.2 + 1) := htie.le
    simp [rbpo, scen1, hov, h4, h3, h2, hle]
  · have hle : sliceSum wm N x2.1 (x2.2 + 1) l1.1 (l2.2 + 1)
        ≤ sliceSum wm N x1.1 (x1.2 + 1) l1.1 (l2.2 + 1) := htie.ge
    simp [rbpo, scen1, hov, h4, h3, h2, h1, hle]

/-- C4 (witness): at the concrete case-2 overlap `l1 = (3,5)`, `l2 = (4,6)` on
the zero matrix (an exact tie), the first-listed interval is truncated to
`(3,3)` while the second is kept intact. -/
theorem C4_amended_witness :
    rbpo zeroWM 10 (1, 2) (1, 2) (3, 5) (4, 6) = ((3, 3), (4, 6)) :=
  (C4_amended zeroWM 10 (1, 2) (1, 2) (3, 5) (4, 6)
      (by with_unfolding_all decide)).2.2.1
    (by with_unfolding_all decide) (by with_unfolding_all decide)
    (by with_unfolding_all decide) (by with_unfolding_all decide)

/-! ## C8: the empty case short-circuits -/

theorem findPairs_eq_nil (wm : WMat) (N : ℕ) (mwps : ℚ)
    (h : ∀ i, i < N → rowSumW wm N i ≤ mwps) :
    findPairs wm N mwps = [] := by
  unfold findPairs
  have hfm : (List.range N).filterMap (fun i =>
      let summed := rowSumW wm N i
      let j := argmaxRow wm N i
      if mwps < summed then
        some (if (j : ℤ) < (i : ℤ) then (⟨j, i, summed, wm i j * 2⟩ : PairR)
              else ⟨i, j, summed, wm i j * 2⟩)
      else none) = [] := by
    rw [List.filterMap_eq_nil_iff]
    intro i hi
    simp only [List.mem_range] at hi
    exact if_neg (not_lt.mpr (h i hi))
  rw [hfm]
  rfl

/-- C8: if no row sum of the sign-normalized writhe matrix exceeds
`minwr_per_seg = disc_len · min_writhe_density / (2π/om0)`, then no candidate
pair is detected and `find_plecs` returns a topology with zero branch,
plectoneme and tracer counts and empty `plecs`, `branches`, `tracers` lists (the
detection guard `len(branches) > 0` short-circuits past the overlap, conflict,
combine and definition stages). -/
theorem C8_empty_case (wm : WMat) (N : ℕ) (mwd pmw dl cd om0 piQ : ℚ)
    (unify : List Branch → List Branch) (hu : unify [] = [])
    (h : ∀ i, i < N →
      rowSumW (fun a b => qsign (sliceSum wm N 0 N 0 N / ((N : ℚ) * (N : ℚ))) * wm a b) N i
        ≤ dl * (mwd / (2 * piQ / om0))) :
    (findPlecsModel wm N mwd pmw dl cd om0 piQ true unify).numBranches = 0 ∧
    (findPlecsModel wm N mwd pmw dl cd om0 piQ true unify).numPlecs = 0 ∧
    (findPlecsModel wm N mwd pmw dl cd om0 piQ true unify).numTracers = 0 ∧
    (findPlecsModel wm N mwd pmw dl cd om0 piQ true unify).plecs = [] ∧
    (findPlecsModel wm N mwd pmw dl cd om0 piQ true unify).branches = [] ∧
    (findPlecsModel wm N mwd pmw dl cd om0 piQ true unify).tracers = [] := by
  have hpairs : findPairs
      (fun a b => qsign (sliceSum wm N 0 N 0 N / ((N : ℚ) * (N : ℚ))) * wm a b) N
      (dl * (mwd / (2 * piQ / om0))) = [] :=
    findPairs_eq_nil _ _ _ h
  unfold findPlecsModel detectAll findBranches assemble
  simp only [hpairs, buildTracers, List.foldl_nil, List.length_nil, lt_irrefl, if_false,
    removeFlaggedPairs, hu, List.zip_nil_left, List.filter_nil, List.unzip_nil,
    List.enum_nil, List.map_nil, List.length_nil]
  simp

/-- C8 (witness): on the 6×6 zero matrix with `min_writhe_density = 0` every
row sum ties the threshold, and the output topology is empty. -/
theorem C8_empty_case_witness :
    (id ([] : List Branch) = [] ∧
      (∀ i, i < 6 →
        rowSumW (fun a b =>
          qsign (sliceSum zeroWM 6 0 6 0 6 / ((6 : ℚ) * (6 : ℚ))) * zeroWM a b) 6 i
          ≤ 1 * ((0 : ℚ) / (2 * 3 / 2)))) ∧
    (findPlecsModel zeroWM 6 0 0 1 1 2 3 true id).numBranches = 0 ∧
    (findPlecsModel zeroWM 6 0 0 1 1 2 3 true id).numPlecs = 0 ∧
    (findPlecsModel zeroWM 6 0 0 1 1 2 3 true id).numTracers = 0 ∧
    (findPlecsModel zeroWM 6 0 0 1 1 2 3 true id).plecs = [] ∧
    (findPlecsModel zeroWM 6 0 0 1 1 2 3 true id).branches = [] ∧
    (findPlecsModel zeroWM 6 0 0 1 1 2 3 true id).tracers = [] :=
  ⟨⟨rfl, by with_unfolding_all decide⟩,
    C8_empty_case zeroWM 6 0 0 1 1 2 3 id rfl (by with_unfolding_all decide)⟩

/-! ## C10: sign-flip invariance of detection -/

theorem sumN_neg (f : ℕ → ℚ) (s n : ℕ) :
    sumN (fun k => -(f k)) s n = -(sumN f s n) := by
  induction n generalizing s with
  | zero => simp [sumN]
  | succ n ih =>
    show -(f s) + sumN (fun k => -(f k)) (s + 1) n = -(f s + sumN f (s + 1) n)
    rw [ih, neg_add]

theorem sliceSum_neg (wm : WMat) (N : ℕ) (r0 r1 c0 c1 : ℤ) :
    sliceSum (fun i j => -(wm i j)) N r0 r1 c0 c1 = -(sliceSum wm N r0 r1 c0 c1) := by
  unfold sliceSum
  simp only []
  rw [show (fun i => sumN (fun j => -(wm i j)) (pyIdx N c0) (pyIdx N c1 - pyIdx N c0))
      = fun i => -(sumN (fun j => wm i j) (pyIdx N c0) (pyIdx N c1 - pyIdx N c0)) from
    funext fun i => sumN_neg _ _ _]
  exact sumN_neg _ _ _

theorem rectSum_neg (wm : WMat) (N : ℕ) (x1 x2 y1 y2 : ℤ) :
    rectSum (fun i j => -(wm i j)) N x1 x2 y1 y2 = -(rectSum wm N x1 x2 y1 y2) := by
  unfold rectSum
  exact sliceSum_neg wm N x1 (x2 + 1) y1 (y2 + 1)

theorem calBranchWrithe_neg (wm : WMat) (N : ℕ) (b : Branch) :
    calBranchWrithe (fun i j => -(wm i j)) N b = -(calBranchWrithe wm N b) := by
  unfold calBranchWrithe
  exact rectSum_neg wm N b.x1 b.x2 b.y1 b.y2

theorem qsign_neg (x : ℚ) : qsign (-x) = -(qsign x) := by
  unfold qsign
  rcases lt_trichotomy x 0 with h | h | h
  · rw [if_pos (neg_pos.mpr h), if_neg (not_lt.mpr h.le), if_pos h]
    norm_num
  · subst h
    norm_num
  · rw [if_neg (not_lt.mpr (neg_nonpos.mpr h.le)), if_pos (neg_lt_zero.mpr h), if_pos h]

/-- The topology record with the raw-matrix writhe fields negated: the total
writhe and each branch's `wr` and `wr_down`. -/
def negRaw (t : Topol) : Topol :=
  { t with
    wr := -t.wr
    branches := t.branches.map (fun b => { b with wr := -b.wr, wrDown := -b.wrDown }) }

theorem assemble_neg (wm : WMat) (N : ℕ) (dl : ℚ) (noOv : Bool)
    (unify : List Branch → List Branch)
    (det : List Branch × List Band × List PlecR × List (List ℕ)) :
    assemble (fun i j => -(wm i j)) N dl noOv unify det
      = negRaw (assemble wm N dl noOv unify det) := by
  unfold assemble negRaw
  simp only [sliceSum_neg, List.map_map, List.length_map]
  refine congrArg₂ (fun a b => Topol.mk N ((N : ℚ) * dl) dl a b _ _ _ _ _ noOv) rfl ?_
  refine List.map_congr_left fun ib _ => ?_
  simp [Function.comp, calBranchWrithe_neg, rectSum_neg, mul_neg]

/-- C10: negating the writhe matrix (with nonzero mean) leaves every detection
result unchanged — candidate pairs, branch rectangles, tracer bands, plectoneme
records — because detection runs on the sign-normalized matrix; only the output
fields computed from the raw matrix (the topology's total `wr`, each branch's
`wr` and `wr_down`) change sign. -/
theorem C10_sign_flip (wm : WMat) (N : ℕ) (mwd pmw dl cd om0 piQ : ℚ)
    (noOv : Bool) (unify : List Branch → List Branch)
    (_hmean : sliceSum wm N 0 N 0 N / ((N : ℚ) * (N : ℚ)) ≠ 0) :
    findPlecsModel (fun i j => -(wm i j)) N mwd pmw dl cd om0 piQ noOv unify
      = negRaw (findPlecsModel wm N mwd pmw dl cd om0 piQ noOv unify) := by
  unfold findPlecsModel
  simp only []
  have hpwm : (fun i j =>
        qsign (sliceSum (fun a b => -(wm a b)) N 0 N 0 N / ((N : ℚ) * (N : ℚ)))
          * -(wm i j))
      = (fun i j => qsign (sliceSum wm N 0 N 0 N / ((N : ℚ) * (N : ℚ))) * wm i j) := by
    funext i j
    rw [sliceSum_neg, neg_div, qsign_neg, neg_mul_neg]
  rw [hpwm]
  exact assemble_neg wm N dl noOv unify _

/-- C10 (witness): on the 6×6 matrix `c10wm` (mean `1/18 ≠ 0`) the negated run
differs from the original exactly by the sign of the raw writhe fields. -/
theorem C10_sign_flip_witness :
    (sliceSum c10wm 6 0 6 0 6 / ((6 : ℚ) * (6 : ℚ)) ≠ 0) ∧
    findPlecsModel (fun i j => -(c10wm i j)) 6 0 0 1 1 2 3 true id
      = negRaw (findPlecsModel c10wm 6 0 0 1 1 2 3 true id) :=
  ⟨by with_unfolding_all decide,
    C10_sign_flip c10wm 6 0 0 1 1 2 3 true id (by with_unfolding_all decide)⟩

/-! ## C1: overlap-resolver invariants

The pairwise resolution only moves interval endpoints inward (or empties an
interval); separated intervals stay separated under such evolution, and once a
branch pair has been processed all four of its interval combinations are
separated unless one of the branches has become invalid (and will be flagged
and filtered).  On a filtered output the resolver is therefore the identity. -/

/-- The `xlim` view of a branch. -/
abbrev xlimB (b : Branch) : Lim := (b.x1, b.x2)

/-- The `ylim` view of a branch. -/
abbrev ylimB (b : Branch) : Lim := (b.y1, b.y2)

/-- Two intervals are separated exactly when the overlap gate of
`_remove_branchpair_overlap` fails. -/
abbrev SepL (p q : Lim) : Prop := p.2 < q.1 ∨ q.2 < p.1

/-- All four interval combinations of a branch pair are separated. -/
abbrev BSep (b c : Branch) : Prop :=
  SepL (ylimB b) (ylimB c) ∧ SepL (xlimB b) (ylimB c) ∧
    SepL (ylimB b) (xlimB c) ∧ SepL (xlimB b) (xlimB c)

/-- A branch with both intervals in order (not flagged by the final pass). -/
abbrev ValidB (b : Branch) : Prop := b.x1 ≤ b.x2 ∧ b.y1 ≤ b.y2

/-- Interval evolution under the resolver: endpoints move inward, or the
interval has become inverted. -/
abbrev Evol (p q : Lim) : Prop := (p.1 ≤ q.1 ∧ q.2 ≤ p.2) ∨ q.2 < q.1

/-- Componentwise evolution of a branch record. -/
abbrev BEvol (b c : Branch) : Prop := Evol (xlimB b) (xlimB c) ∧ Evol (ylimB b) (ylimB c)

theorem evol_refl (p : Lim) : Evol p p := Or.inl ⟨le_refl _, le_refl _⟩

theorem evol_trans {p q r : Lim} (h1 : Evol p q) (h2 : Evol q r) : Evol p r := by
  rcases h1 with h1 | h1 <;> rcases h2 with h2 | h2 <;> omega

theorem evol_invalid {p q : Lim} (h : Evol p q) (hp : p.2 < p.1) : q.2 < q.1 := by
  rcases h with h | h <;> omega

theorem evol_valid {p q : Lim} (h : Evol p q) (hq : q.1 ≤ q.2) : p.1 ≤ q.1 ∧ q.2 ≤ p.2 := by
  rcases h with h | h <;> omega

theorem sep_evol {p q p' q' : Lim} (hs : SepL p q) (hp : Evol p p') (hq : Evol q q')
    (hvp : p'.1 ≤ p'.2) (hvq : q'.1 ≤ q'.2) : SepL p' q' := by
  rcases hp with hp | hp <;> rcases hq with hq | hq <;> rcases hs with hs | hs <;> omega

theorem bevol_refl (b : Branch) : BEvol b b := ⟨evol_refl _, evol_refl _⟩

theorem bevol_trans {b c d : Branch} (h1 : BEvol b c) (h2 : BEvol c d) : BEvol b d :=
  ⟨evol_trans h1.1 h2.1, evol_trans h1.2 h2.2⟩

theorem bevol_valid {b c : Branch} (h : BEvol b c) (hc : ValidB c) : ValidB b := by
  obtain ⟨hx, hy⟩ := h
  simp only [Evol, xlimB, ylimB] at hx hy
  exact ⟨by rcases hx with hx | hx <;> omega, by rcases hy with hy | hy <;> omega⟩

theorem bevol_invalid {b c : Branch} (h : BEvol b c) (hb : ¬ ValidB b) : ¬ ValidB c := by
  intro hc
  exact hb (bevol_valid h hc)

theorem bsep_evol_left {a a' c : Branch} (hs : BSep a c) (he : BEvol a a')
    (hva : ValidB a') (hvc : ValidB c) : BSep a' c :=
  ⟨sep_evol hs.1 he.2 (evol_refl _) hva.2 hvc.2,
   sep_evol hs.2.1 he.1 (evol_refl _) hva.1 hvc.2,
   sep_evol hs.2.2.1 he.2 (evol_refl _) hva.2 hvc.1,
   sep_evol hs.2.2.2 he.1 (evol_refl _) hva.1 hvc.1⟩

theorem bsep_evol_right {a c c' : Branch} (hs : BSep a c) (he : BEvol c c')
    (hva : ValidB a) (hvc : ValidB c') : BSep a c' :=
  ⟨sep_evol hs.1 (evol_refl _) he.2 hva.2 hvc.2,
   sep_evol hs.2.1 (evol_refl _) he.2 hva.1 hvc.2,
   sep_evol hs.2.2.1 (evol_refl _) he.1 hva.2 hvc.1,
   sep_evol hs.2.2.2 (evol_refl _) he.1 hva.1 hvc.1⟩

theorem rbpo_sep (wm : WMat) (N : ℕ) (xa xb l1 l2 : Lim) (h : SepL l1 l2) :
    rbpo wm N xa xb l1 l2 = (l1, l2) := by
  unfold rbpo
  exact if_pos h

theorem rbpo_post (wm : WMat) (N : ℕ) (xa xb l1 l2 : Lim) :
    Evol l1 (rbpo wm N xa xb l1 l2).1 ∧ Evol l2 (rbpo wm N xa xb l1 l2).2 ∧
      (SepL (rbpo wm N xa xb l1 l2).1 (rbpo wm N xa xb l1 l2).2
        ∨ (rbpo wm N xa xb l1 l2).1.2 < (rbpo wm N xa xb l1 l2).1.1
        ∨ (rbpo wm N xa xb l1 l2).2.2 < (rbpo wm N xa xb l1 l2).2.1) := by
  unfold rbpo scen1 scen2
  simp only []
  split_ifs
  all_goals try contradiction
  all_goals try simp only [Evol, SepL]
  all_goals omega

/-- The first `_remove_branchpair_overlap` call of the pair loop, as a named
step (identical to the first `let` of `processPair`). -/
def ppR1 (wm : WMat) (N : ℕ) (b c : Branch) : Lim × Lim :=
  rbpo wm N (b.x1, b.x2) (c.x1, c.x2) (b.y1, b.y2) (c.y1, c.y2)

/-- The second `_remove_branchpair_overlap` call of the pair loop. -/
def ppR2 (wm : WMat) (N : ℕ) (b c : Branch) : Lim × Lim :=
  rbpo wm N (ppR1 wm N b c).1 (c.x1, c.x2) (b.x1, b.x2) (ppR1 wm N b c).2

/-- The third `_remove_branchpair_overlap` call of the pair loop. -/
def ppR3 (wm : WMat) (N : ℕ) (b c : Branch) : Lim × Lim :=
  rbpo wm N (ppR2 wm N b c).1 (ppR2 wm N b c).2 (ppR1 wm N b c).1 (c.x1, c.x2)

/-- The fourth `_remove_branchpair_overlap` call of the pair loop. -/
def ppR4 (wm : WMat) (N : ℕ) (b c : Branch) : Lim × Lim :=
  rbpo wm N (ppR3 wm N b c).1 (ppR2 wm N b c).2 (ppR2 wm N b c).1 (ppR3 wm N b c).2

theorem processPair_eq (wm : WMat) (N : ℕ) (b c : Branch) :
    processPair wm N b c =
      (⟨(ppR4 wm N b c).1.1, (ppR4 wm N b c).1.2,
         (ppR3 wm N b c).1.1, (ppR3 wm N b c).1.2⟩,
       ⟨(ppR4 wm N b c).2.1, (ppR4 wm N b c).2.2,
         (ppR2 wm N b c).2.1, (ppR2 wm N b c).2.2⟩) := rfl

theorem ppR1_def (wm : WMat) (N : ℕ) (b c : Branch) :
    ppR1 wm N b c = rbpo wm N (b.x1, b.x2) (c.x1, c.x2) (b.y1, b.y2) (c.y1, c.y2) := rfl

theorem ppR2_def (wm : WMat) (N : ℕ) (b c : Branch) :
    ppR2 wm N b c =
      rbpo wm N (ppR1 wm N b c).1 (c.x1, c.x2) (b.x1, b.x2) (ppR1 wm N b c).2 := rfl

theorem ppR3_def (wm : WMat) (N : ℕ) (b c : Branch) :
    ppR3 wm N b c =
      rbpo wm N (ppR2 wm N b c).1 (ppR2 wm N b c).2 (ppR1 wm N b c).1 (c.x1, c.x2) := rfl

theorem ppR4_def (wm : WMat) (N : ℕ) (b c : Branch) :
    ppR4 wm N b c =
      rbpo wm N (ppR3 wm N b c).1 (ppR2 wm N b c).2 (ppR2 wm N b c).1 (ppR3 wm N b c).2 := rfl

theorem processPair_post (wm : WMat) (N : ℕ) (b c : Branch) :
    BEvol b (processPair wm N b c).1 ∧ BEvol c (processPair wm N b c).2 ∧
      (ValidB (processPair wm N b c).1 → ValidB (processPair wm N b c).2 →
        BSep (processPair wm N b c).1 (processPair wm N b c).2) := by
  have p1 := rbpo_post wm N (b.x1, b.x2) (c.x1, c.x2) (b.y1, b.y2) (c.y1, c.y2)
  have p2 := rbpo_post wm N (ppR1 wm N b c).1 (c.x1, c.x2) (b.x1, b.x2) (ppR1 wm N b c).2
  have p3 := rbpo_post wm N (ppR2 wm N b c).1 (ppR2 wm N b c).2 (ppR1 wm N b c).1 (c.x1, c.x2)
  have p4 := rbpo_post wm N (ppR3 wm N b c).1 (ppR2 wm N b c).2 (ppR2 wm N b c).1 (ppR3 wm N b c).2
  rw [← ppR1_def] at p1
  rw [← ppR2_def] at p2
  rw [← ppR3_def] at p3
  rw [← ppR4_def] at p4
  obtain ⟨e1a, e1b, s1⟩ := p1
  obtain ⟨e2a, e2b, s2⟩ := p2
  obtain ⟨e3a, e3b, s3⟩ := p3
  obtain ⟨e4a, e4b, s4⟩ := p4
  rw [processPair_eq]
  refine ⟨⟨evol_trans e2a e4a, evol_trans e1a e3a⟩,
          ⟨evol_trans e3b e4b, evol_trans e1b e2b⟩, ?_⟩
  intro hvb hvc
  have hb1 : (ppR4 wm N b c).1.1 ≤ (ppR4 wm N b c).1.2 := hvb.1
  have hb2 : (ppR3 wm N b c).1.1 ≤ (ppR3 wm N b c).1.2 := hvb.2
  have hc1 : (ppR4 wm N b c).2.1 ≤ (ppR4 wm N b c).2.2 := hvc.1
  have hc2 : (ppR2 wm N b c).2.1 ≤ (ppR2 wm N b c).2.2 := hvc.2
  refine ⟨?_, ?_, ?_, ?_⟩
  · rcases s1 with s1 | s1 | s1
    · exact sep_evol s1 e3a e2b hb2 hc2
    · exact absurd hb2 (by have := evol_invalid e3a s1; omega)
    · exact absurd hc2 (by have := evol_invalid e2b s1; omega)
  · rcases s2 with s2 | s2 | s2
    · exact sep_evol s2 e4a (evol_refl _) hb1 hc2
    · exact absurd hb1 (by have := evol_invalid e4a s2; omega)
    · exact absurd hc2 (by omega)
  · rcases s3 with s3 | s3 | s3
    · exact sep_evol s3 (evol_refl _) e4b hb2 hc1
    · exact absurd hb2 (by omega)
    · exact absurd hc1 (by have := evol_invalid e4b s3; omega)
  · rcases s4 with s4 | s4 | s4
    · exact s4
    · exact absurd hb1 (by omega)
    · exact absurd hc1 (by omega)

theorem forall₂_bevol_trans {l1 l2 l3 : List Branch} (h1 : List.Forall₂ BEvol l1 l2)
    (h2 : List.Forall₂ BEvol l2 l3) : List.Forall₂ BEvol l1 l3 := by
  induction h1 generalizing l3 with
  | nil => cases h2; exact List.Forall₂.nil
  | cons hab htl ih =>
    cases h2 with
    | cons hbc h2tl => exact List.Forall₂.cons (bevol_trans hab hbc) (ih h2tl)

theorem forall₂_bevol_mem_right {l l' : List Branch} (h : List.Forall₂ BEvol l l') :
    ∀ e ∈ l', ∃ c ∈ l, BEvol c e := by
  induction h with
  | nil => intro e he; cases he
  | cons hab htl ih =>
    intro e he
    rcases List.mem_cons.mp he with rfl | he
    · exact ⟨_, List.mem_cons_self _ _, hab⟩
    · obtain ⟨c, hc, hce⟩ := ih e he
      exact ⟨c, List.mem_cons_of_mem _ hc, hce⟩

theorem resolveAgainst_post (wm : WMat) (N : ℕ) (b : Branch) (l : List Branch) :
    BEvol b (resolveAgainst wm N b l).1 ∧
      List.Forall₂ BEvol l (resolveAgainst wm N b l).2 ∧
      (∀ c ∈ (resolveAgainst wm N b l).2,
        ValidB (resolveAgainst wm N b l).1 → ValidB c →
          BSep (resolveAgainst wm N b l).1 c) := by
  induction l generalizing b with
  | nil =>
    refine ⟨bevol_refl b, List.Forall₂.nil, ?_⟩
    intro c hc
    cases hc
  | cons c rest ih =>
    by_cases hskip : c.y2 < c.y1
    · have hre : resolveAgainst wm N b (c :: rest) =
          ((resolveAgainst wm N b rest).1, c :: (resolveAgainst wm N b rest).2) := by
        conv_lhs => rw [resolveAgainst]
        rw [if_pos hskip]
      rw [hre]
      obtain ⟨ih1, ih2, ih3⟩ := ih b
      refine ⟨ih1, List.Forall₂.cons (bevol_refl c) ih2, ?_⟩
      intro d hd hv1 hvd
      rcases List.mem_cons.mp hd with rfl | hd
      · exact absurd hvd.2 (by omega)
      · exact ih3 d hd hv1 hvd
    · have hre : resolveAgainst wm N b (c :: rest) =
          ((resolveAgainst wm N (processPair wm N b c).1 rest).1,
            (processPair wm N b c).2 ::
              (resolveAgainst wm N (processPair wm N b c).1 rest).2) := by
        conv_lhs => rw [resolveAgainst]
        rw [if_neg hskip]
      rw [hre]
      obtain ⟨pp1, pp2, pp3⟩ := processPair_post wm N b c
      obtain ⟨ih1, ih2, ih3⟩ := ih (processPair wm N b c).1
      refine ⟨bevol_trans pp1 ih1, List.Forall₂.cons pp2 ih2, ?_⟩
      intro d hd hv1 hvd
      rcases List.mem_cons.mp hd with rfl | hd
      · have hvp1 : ValidB (processPair wm N b c).1 := bevol_valid ih1 hv1
        exact bsep_evol_left (pp3 hvp1 hvd) ih1 hv1 hvd
      · exact ih3 d hd hv1 hvd

theorem rboLoopF_post (wm : WMat) (N : ℕ) :
    ∀ fuel (l : List Branch), fuel = l.length →
      List.Forall₂ BEvol l (rboLoopF wm N fuel l) ∧
        List.Pairwise (fun b c => ValidB b → ValidB c → BSep b c)
          (rboLoopF wm N fuel l) := by
  intro fuel
  induction fuel with
  | zero =>
    intro l hl
    cases l with
    | nil => exact ⟨List.Forall₂.nil, List.Pairwise.nil⟩
    | cons b rest => simp at hl
  | succ fuel ih =>
    intro l hl
    cases l with
    | nil => exact ⟨List.Forall₂.nil, List.Pairwise.nil⟩
    | cons b rest =>
      have hlen : fuel = rest.length := by simpa using hl
      by_cases hskip : b.y2 < b.y1
      · have hre : rboLoopF wm N (fuel + 1) (b :: rest) = b :: rboLoopF wm N fuel rest := by
          conv_lhs => rw [rboLoopF]
          rw [if_pos hskip]
        rw [hre]
        obtain ⟨f2, pw⟩ := ih rest hlen
        refine ⟨List.Forall₂.cons (bevol_refl b) f2, List.Pairwise.cons ?_ pw⟩
        intro e _ hvb _
        exact absurd hvb.2 (by omega)
      · have hre : rboLoopF wm N (fuel + 1) (b :: rest) =
            (resolveAgainst wm N b rest).1 ::
              rboLoopF wm N fuel (resolveAgainst wm N b rest).2 := by
          conv_lhs => rw [rboLoopF]
          rw [if_neg hskip]
        rw [hre]
        obtain ⟨ra1, ra2, ra3⟩ := resolveAgainst_post wm N b rest
        have hlen2 : fuel = (resolveAgainst wm N b rest).2.length := by
          rw [resolveAgainst_snd_length]
          exact hlen
        obtain ⟨f2, pw⟩ := ih (resolveAgainst wm N b rest).2 hlen2
        refine ⟨List.Forall₂.cons ra1 (forall₂_bevol_trans ra2 f2),
          List.Pairwise.cons ?_ pw⟩
        intro e he hvr hve
        obtain ⟨c, hc, hce⟩ := forall₂_bevol_mem_right f2 e he
        have hvc : ValidB c := bevol_valid hce hve
        exact bsep_evol_right (ra3 c hc hvr hvc) hce hvr hve

theorem flagInvalid_unflagged (b : Branch) (h : (flagInvalid b).x1 ≠ -1) :
    flagInvalid b = b ∧ ValidB b := by
  by_cases hc : b.y2 < b.y1 ∨ b.x2 < b.x1
  · have hx : (flagInvalid b).x1 = -1 := by
      unfold flagInvalid
      rw [if_pos hc]
    exact absurd hx h
  · have he : flagInvalid b = b := by
      unfold flagInvalid
      rw [if_neg hc]
    exact ⟨he, by push_neg at hc; exact ⟨by omega, by omega⟩⟩

theorem removeBranchOverlap_invariants (wm : WMat) (N : ℕ) (bs : List Branch) :
    (∀ b ∈ removeFlaggedB (removeBranchOverlap wm N bs), ValidB b) ∧
      List.Pairwise BSep (removeFlaggedB (removeBranchOverlap wm N bs)) := by
  obtain ⟨-, pw⟩ := rboLoopF_post wm N bs.length bs rfl
  have pw' : List.Pairwise (fun b c => ValidB b → ValidB c → BSep b c)
      (rboLoop wm N bs) := pw
  constructor
  · intro b hb
    simp only [removeFlaggedB, removeBranchOverlap, List.mem_filter] at hb
    obtain ⟨hmem, hx⟩ := hb
    obtain ⟨d, _, rfl⟩ := List.mem_map.mp hmem
    have hne : (flagInvalid d).x1 ≠ -1 := by simpa using hx
    have h := flagInvalid_unflagged d hne
    rw [h.1]
    exact h.2
  · have pw2 : List.Pairwise (fun e1 e2 => e1.x1 ≠ -1 → e2.x1 ≠ -1 → BSep e1 e2)
        ((rboLoop wm N bs).map flagInvalid) := by
      refine List.Pairwise.map flagInvalid ?_ pw'
      intro a b hab h1 h2
      have ha := flagInvalid_unflagged a h1
      have hb := flagInvalid_unflagged b h2
      rw [ha.1, hb.1]
      exact hab ha.2 hb.2
    have pw3 := pw2.filter (fun b => decide (b.x1 ≠ -1))
    refine List.Pairwise.imp_of_mem ?_ pw3
    intro a b ha hb hab
    have hxa : a.x1 ≠ -1 := by
      have := (List.mem_filter.mp ha).2
      simpa using this
    have hxb : b.x1 ≠ -1 := by
      have := (List.mem_filter.mp hb).2
      simpa using this
    exact hab hxa hxb

theorem processPair_of_sep (wm : WMat) (N : ℕ) (b c : Branch) (h : BSep b c) :
    processPair wm N b c = (b, c) := by
  have h1 : ppR1 wm N b c = ((b.y1, b.y2), (c.y1, c.y2)) := by
    rw [ppR1_def]
    exact rbpo_sep wm N _ _ _ _ h.1
  have h2 : ppR2 wm N b c = ((b.x1, b.x2), (c.y1, c.y2)) := by
    rw [ppR2_def, h1]
    exact rbpo_sep wm N _ _ _ _ h.2.1
  have h3 : ppR3 wm N b c = ((b.y1, b.y2), (c.x1, c.x2)) := by
    rw [ppR3_def, h2, h1]
    exact rbpo_sep wm N _ _ _ _ h.2.2.1
  have h4 : ppR4 wm N b c = ((b.x1, b.x2), (c.x1, c.x2)) := by
    rw [ppR4_def, h3, h2]
    exact rbpo_sep wm N _ _ _ _ h.2.2.2
  rw [processPair_eq, h2, h3, h4]

theorem resolveAgainst_of_sep (wm : WMat) (N : ℕ) (b : Branch) (l : List Branch)
    (hsep : ∀ c ∈ l, BSep b c) (hv : ∀ c ∈ l, ValidB c) :
    resolveAgainst wm N b l = (b, l) := by
  induction l with
  | nil => rfl
  | cons c rest ih =>
    have hnc : ¬ c.y2 < c.y1 := by
      have := (hv c (List.mem_cons_self _ _)).2
      omega
    unfold resolveAgainst
    rw [if_neg hnc]
    simp only [processPair_of_sep wm N b c (hsep c (List.mem_cons_self _ _))]
    rw [ih (fun d hd => hsep d (List.mem_cons_of_mem _ hd))
      (fun d hd => hv d (List.mem_cons_of_mem _ hd))]

theorem rboLoop_of_sep (wm : WMat) (N : ℕ) (l : List Branch)
    (hv : ∀ c ∈ l, ValidB c) (hp : List.Pairwise BSep l) : rboLoop wm N l = l := by
  induction l with
  | nil => rfl
  | cons b rest ih =>
    rw [rboLoop_cons]
    have hnb : ¬ b.y2 < b.y1 := by
      have := (hv b (List.mem_cons_self _ _)).2
      omega
    rw [if_neg hnb]
    simp only [resolveAgainst_of_sep wm N b rest (List.pairwise_cons.mp hp).1
      (fun c hc => hv c (List.mem_cons_of_mem _ hc))]
    rw [ih (fun c hc => hv c (List.mem_cons_of_mem _ hc)) (List.pairwise_cons.mp hp).2]

theorem map_flagInvalid_of_valid (l : List Branch) (hv : ∀ c ∈ l, ValidB c) :
    l.map flagInvalid = l := by
  induction l with
  | nil => rfl
  | cons b rest ih =>
    have hb : flagInvalid b = b := by
      unfold flagInvalid
      rw [if_neg (by have h := hv b (List.mem_cons_self _ _); omega)]
    simp only [List.map_cons, hb, ih (fun c hc => hv c (List.mem_cons_of_mem _ hc))]

/-- C1 (amended): `_remove_branch_overlap` is not idempotent on its raw output
(see the counterexample: flagged branches left in the list are re-processed),
but it is idempotent modulo the flag filter: after dropping the flagged
branches, as `find_plecs` itself immediately does via
`_remove_flagged_branches`, running `_remove_branch_overlap` again returns the
list unchanged, because the surviving branches are pairwise separated in all
four interval combinations and every pairwise call exits at the no-overlap
gate. -/
theorem C1_amended (wm : WMat) (N : ℕ) (bs : List Branch) :
    removeBranchOverlap wm N (removeFlaggedB (removeBranchOverlap wm N bs)) =
      removeFlaggedB (removeBranchOverlap wm N bs) := by
  obtain ⟨hv, hp⟩ := removeBranchOverlap_invariants wm N bs
  show (rboLoop wm N (removeFlaggedB (removeBranchOverlap wm N bs))).map flagInvalid =
    removeFlaggedB (removeBranchOverlap wm N bs)
  rw [rboLoop_of_sep wm N _ hv hp, map_flagInvalid_of_valid _ hv]

/-! ## C6: interior-index invariants of the detection stages

With zeroed boundary rows/columns and non-negative thresholds, the candidate
pairs live strictly inside the matrix; the tracer boxes and hence the raw
branches inherit those bounds; the overlap resolver moves interval ends inward
by at most one past a neighbour (so a lower bound stays in `[1, N-1]` and an
upper bound in `[0, N-2]`), and a surviving (valid, unflagged) branch is back in
`[1, N-2]`; the combine stage takes `max`/`min` of interior values.  A
plectoneme candidate flagged by the second overlap pass, however, carries the
sentinel `x1 = -1` into `_define_plecs` and can be emitted (see
`C6_counterexample`), so emitted plectonemes satisfy only the disjunction
proved in `C6_amended`. -/

/-- An interior index: `1 ≤ v ≤ N - 2`. -/
abbrev InR (N : ℕ) (v : ℤ) : Prop := 1 ≤ v ∧ v + 2 ≤ (N : ℤ)

/-- Range invariant of an interval under the overlap resolver: the lower bound
stays in `[1, N-1]`, the upper bound in `[0, N-2]`. -/
abbrev LimR (N : ℕ) (l : Lim) : Prop :=
  1 ≤ l.1 ∧ l.1 + 1 ≤ (N : ℤ) ∧ 0 ≤ l.2 ∧ l.2 + 2 ≤ (N : ℤ)

/-- Both intervals of a branch satisfy the resolver range invariant. -/
abbrev BR (N : ℕ) (b : Branch) : Prop := LimR N (b.x1, b.x2) ∧ LimR N (b.y1, b.y2)

/-- All four branch coordinates are interior. -/
abbrev BIn (N : ℕ) (b : Branch) : Prop :=
  InR N b.x1 ∧ InR N b.x2 ∧ InR N b.y1 ∧ InR N b.y2

theorem br_valid_in (N : ℕ) (b : Branch) (h : BR N b) (hv : ValidB b) : BIn N b := by
  simp only [BR, LimR, ValidB, BIn, InR] at *
  omega

theorem sumN_pos_exists (f : ℕ → ℚ) :
    ∀ n s, 0 < sumN f s n → ∃ k, s ≤ k ∧ k < s + n ∧ 0 < f k := by
  intro n
  induction n with
  | zero =>
    intro s h
    exact absurd h (lt_irrefl 0)
  | succ n ih =>
    intro s h
    have h' : 0 < f s + sumN f (s + 1) n := h
    by_cases hf : 0 < f s
    · exact ⟨s, le_refl s, by omega, hf⟩
    · push_neg at hf
      obtain ⟨k, h1, h2, h3⟩ := ih (s + 1) (by linarith)
      exact ⟨k, by omega, by omega, h3⟩

theorem sumN_eq_zero (f : ℕ → ℚ) :
    ∀ n s, (∀ k, s ≤ k → k < s + n → f k = 0) → sumN f s n = 0 := by
  intro n
  induction n with
  | zero => intro s _; rfl
  | succ n ih =>
    intro s h
    have he : sumN f s (n + 1) = f s + sumN f (s + 1) n := rfl
    rw [he, h s (le_refl s) (by omega),
      ih (s + 1) (fun k hk1 hk2 => h k (by omega) (by omega)), add_zero]

theorem foldBest_ge (g : ℕ → ℚ) (l : List ℕ) : ∀ best : ℕ,
    g best ≤ g (l.foldl (fun b j => if g b < g j then j else b) best) := by
  induction l with
  | nil => intro best; exact le_refl _
  | cons a l ih =>
    intro best
    have step : g best ≤ g (if g best < g a then a else best) := by
      split_ifs with h
      · exact le_of_lt h
      · exact le_refl _
    simpa only [List.foldl_cons] using le_trans step (ih (if g best < g a then a else best))

theorem foldBest_mem_ge (g : ℕ → ℚ) (l : List ℕ) : ∀ (best : ℕ) (j : ℕ), j ∈ l →
    g j ≤ g (l.foldl (fun b k => if g b < g k then k else b) best) := by
  induction l with
  | nil => intro _ j hj; cases hj
  | cons a l ih =>
    intro best j hj
    rcases List.mem_cons.mp hj with rfl | hj
    · have step : g j ≤ g (if g best < g j then j else best) := by
        split_ifs with h
        · exact le_refl _
        · exact le_of_not_lt h
      simpa only [List.foldl_cons] using
        le_trans step (foldBest_ge g l (if g best < g j then j else best))
    · simpa only [List.foldl_cons] using ih (if g best < g a then a else best) j hj

theorem foldBest_mem (g : ℕ → ℚ) (l : List ℕ) : ∀ best : ℕ,
    l.foldl (fun b k => if g b < g k then k else b) best ∈ best :: l := by
  induction l with
  | nil => intro best; exact List.mem_cons_self _ _
  | cons a l ih =>
    intro best
    have h := ih (if g best < g a then a else best)
    rw [List.foldl_cons]
    rcases List.mem_cons.mp h with h | h
    · rw [h]
      split_ifs with hc
      · exact List.mem_cons_of_mem _ (List.mem_cons_self _ _)
      · exact List.mem_cons_self _ _
    · exact List.mem_cons_of_mem _ (List.mem_cons_of_mem _ h)

theorem argmaxRow_lt (wm : WMat) (N : ℕ) (i : ℕ) (hN : 0 < N) : argmaxRow wm N i < N := by
  have h := foldBest_mem (wm i) (List.range N) 0
  rcases List.mem_cons.mp h with h | h
  · rw [show argmaxRow wm N i = (List.range N).foldl
      (fun b k => if wm i b < wm i k then k else b) 0 from rfl, h]
    exact hN
  · exact List.mem_range.mp h

theorem argmaxRow_ge (wm : WMat) (N : ℕ) (i : ℕ) (k : ℕ) (hk : k < N) :
    wm i k ≤ wm i (argmaxRow wm N i) :=
  foldBest_mem_ge (wm i) (List.range N) 0 k (List.mem_range.mpr hk)

theorem mem_insertByX {a p : PairR} : ∀ {l : List PairR}, a ∈ insertByX p l → a = p ∨ a ∈ l := by
  intro l
  induction l with
  | nil =>
    intro h
    exact Or.inl (List.mem_singleton.mp h)
  | cons q l ih =>
    intro h
    rw [insertByX] at h
    split_ifs at h with hc
    · rcases List.mem_cons.mp h with rfl | h
      · exact Or.inr (List.mem_cons_self _ _)
      · rcases ih h with h | h
        · exact Or.inl h
        · exact Or.inr (List.mem_cons_of_mem _ h)
    · rcases List.mem_cons.mp h with rfl | h
      · exact Or.inl rfl
      · exact Or.inr h

theorem mem_sortByX_aux {a : PairR} : ∀ (l acc : List PairR),
    a ∈ l.foldl (fun acc p => insertByX p acc) acc → a ∈ acc ∨ a ∈ l := by
  intro l
  induction l with
  | nil => intro acc h; exact Or.inl h
  | cons p l ih =>
    intro acc h
    rcases ih (insertByX p acc) h with h | h
    · rcases mem_insertByX h with rfl | h
      · exact Or.inr (List.mem_cons_self _ _)
      · exact Or.inl h
    · exact Or.inr (List.mem_cons_of_mem _ h)

theorem mem_sortByX {a : PairR} {l : List PairR} (h : a ∈ sortByX l) : a ∈ l := by
  rcases mem_sortByX_aux l [] h with h | h
  · cases h
  · exact h

theorem findPairs_range (wm : WMat) (N : ℕ) (mwps : ℚ) (hN : 2 ≤ N)
    (hbz : ∀ i j, i = 0 ∨ i + 1 = N ∨ j = 0 ∨ j + 1 = N → wm i j = 0)
    (hm : 0 ≤ mwps) :
    ∀ p ∈ findPairs wm N mwps, InR N p.x ∧ InR N p.y := by
  intro p hp
  obtain ⟨i, hi, hfi⟩ := List.mem_filterMap.mp (mem_sortByX hp)
  have hiN : i < N := List.mem_range.mp hi
  simp only [] at hfi
  by_cases hsum : mwps < rowSumW wm N i
  case neg =>
    rw [if_neg hsum] at hfi
    cases hfi
  rw [if_pos hsum] at hfi
  have hpos : 0 < rowSumW wm N i := lt_of_le_of_lt hm hsum
  obtain ⟨k, hk0, hkN, hkpos⟩ := sumN_pos_exists (wm i) N 0 hpos
  have hi0 : i ≠ 0 := by
    intro h0
    have hz : rowSumW wm N i = 0 :=
      sumN_eq_zero (wm i) N 0 (fun k _ _ => hbz i k (Or.inl h0))
    rw [hz] at hpos
    exact lt_irrefl 0 hpos
  have hi1 : i + 1 ≠ N := by
    intro h1
    have hz : rowSumW wm N i = 0 :=
      sumN_eq_zero (wm i) N 0 (fun k _ _ => hbz i k (Or.inr (Or.inl h1)))
    rw [hz] at hpos
    exact lt_irrefl 0 hpos
  have hjN : argmaxRow wm N i < N := argmaxRow_lt wm N i (by omega)
  have hjpos : 0 < wm i (argmaxRow wm N i) :=
    lt_of_lt_of_le hkpos (argmaxRow_ge wm N i k (by omega))
  have hj0 : argmaxRow wm N i ≠ 0 := by
    intro h0
    rw [h0, hbz i 0 (Or.inr (Or.inr (Or.inl rfl)))] at hjpos
    exact lt_irrefl 0 hjpos
  have hj1 : argmaxRow wm N i + 1 ≠ N := by
    intro h1
    rw [hbz i (argmaxRow wm N i) (Or.inr (Or.inr (Or.inr h1)))] at hjpos
    exact lt_irrefl 0 hjpos
  split_ifs at hfi
  · cases hfi
    constructor <;> constructor <;> push_cast <;> omega
  · cases hfi
    constructor <;> constructor <;> push_cast <;> omega

theorem set_oob {α : Type} : ∀ (l : List α) (n : ℕ) (a : α), l.length ≤ n → l.set n a = l := by
  intro l
  induction l with
  | nil => intro n a _; rfl
  | cons b l ih =>
    intro n a h
    cases n with
    | zero => simp at h
    | succ n =>
      rw [List.set_cons_succ, ih n a (by simpa using h)]

theorem tracerStep_range (cs : ℤ) (N : ℕ) (ts : List TracerB) (p : PairR)
    (hts : ∀ t ∈ ts, InR N t.xlo ∧ InR N t.xhi ∧ InR N t.ylo ∧ InR N t.yhi)
    (hp : InR N p.x ∧ InR N p.y) :
    ∀ t ∈ tracerStep cs ts p, InR N t.xlo ∧ InR N t.xhi ∧ InR N t.ylo ∧ InR N t.yhi := by
  intro u hu
  unfold tracerStep at hu
  simp only [] at hu
  split_ifs at hu with hz
  · rcases List.mem_append.mp hu with hu | hu
    · exact hts u hu
    · rw [List.mem_singleton.mp hu]
      exact ⟨hp.1, hp.1, hp.2, hp.2⟩
  · by_cases hlen : (selectTracer cs p ts).1.toNat < ts.length
    · rcases List.mem_or_eq_of_mem_set hu with hu | rfl
      · exact hts u hu
      · have hmem : ts.getD (selectTracer cs p ts).1.toNat default ∈ ts := by
          rw [List.getD_eq_getElem ts default hlen]
          exact List.getElem_mem hlen
        obtain ⟨h1, h2, h3, h4⟩ := hts _ hmem
        simp only [InR] at h1 h2 h3 h4 hp ⊢
        omega
    · rw [set_oob ts _ _ (le_of_not_lt hlen)] at hu
      exact hts u hu

theorem buildTracers_range (cs : ℤ) (N : ℕ) :
    ∀ (ps : List PairR) (acc : List TracerB),
      (∀ p ∈ ps, InR N p.x ∧ InR N p.y) →
      (∀ t ∈ acc, InR N t.xlo ∧ InR N t.xhi ∧ InR N t.ylo ∧ InR N t.yhi) →
      ∀ t ∈ ps.foldl (tracerStep cs) acc,
        InR N t.xlo ∧ InR N t.xhi ∧ InR N t.ylo ∧ InR N t.yhi := by
  intro ps
  induction ps with
  | nil => intro acc _ hacc t ht; exact hacc t ht
  | cons p ps ih =>
    intro acc hps hacc t ht
    rw [List.foldl_cons] at ht
    exact ih (tracerStep cs acc p)
      (fun q hq => hps q (List.mem_cons_of_mem _ hq))
      (tracerStep_range cs N acc p hacc (hps p (List.mem_cons_self _ _))) t ht

theorem findBranches_aux (wm : WMat) (N : ℕ) (mwd dl conv : ℚ) :
    ∀ (ts : List TracerB) (acc : List Branch × List Band) (b : Branch),
      b ∈ (ts.foldl (fun acc t =>
        let wr := rectSum wm N t.xlo t.xhi t.ylo t.yhi * 2
        let lp := (max (t.xhi - t.xlo + 1) (t.yhi - t.ylo + 1) : ℚ) * dl
        let wrdens := conv * wr / lp
        if wrdens < mwd then acc
        else (acc.1 ++ [⟨t.xlo, t.xhi, t.ylo, t.yhi⟩], acc.2 ++ [mkBand t])) acc).1 →
      b ∈ acc.1 ∨ ∃ t ∈ ts, b = ⟨t.xlo, t.xhi, t.ylo, t.yhi⟩ := by
  intro ts
  induction ts with
  | nil => intro acc b hb; exact Or.inl hb
  | cons t ts ih =>
    intro acc b hb
    rw [List.foldl_cons] at hb
    rcases ih _ b hb with hb | hb
    · simp only [] at hb
      split_ifs at hb with hc
      · exact Or.inl hb
      · rcases List.mem_append.mp hb with hb | hb
        · exact Or.inl hb
        · exact Or.inr ⟨t, List.mem_cons_self _ _, List.mem_singleton.mp hb⟩
    · obtain ⟨u, hu, he⟩ := hb
      exact Or.inr ⟨u, List.mem_cons_of_mem _ hu, he⟩

theorem findBranches_fst_mem (wm : WMat) (N : ℕ) (mwd dl cd conv : ℚ) :
    ∀ b ∈ (findBranches wm N mwd dl cd conv).1,
      ∃ t ∈ buildTracers ⌈cd / dl⌉ (findPairs wm N (dl * (mwd / conv))),
        b = ⟨t.xlo, t.xhi, t.ylo, t.yhi⟩ := by
  intro b hb
  unfold findBranches at hb
  simp only [] at hb
  rcases findBranches_aux wm N mwd dl conv _ _ b hb with h | h
  · cases h
  · exact h

theorem rbpo_range (wm : WMat) (M : ℕ) (xa xb l1 l2 : Lim) (N : ℕ)
    (h1 : LimR N l1) (h2 : LimR N l2) :
    LimR N (rbpo wm M xa xb l1 l2).1 ∧ LimR N (rbpo wm M xa xb l1 l2).2 := by
  unfold rbpo scen1 scen2
  simp only []
  split_ifs
  all_goals try contradiction
  all_goals try simp only [LimR] at h1 h2 ⊢
  all_goals omega

theorem processPair_range (wm : WMat) (M : ℕ) (b c : Branch) (N : ℕ)
    (hb : BR N b) (hc : BR N c) :
    BR N (processPair wm M b c).1 ∧ BR N (processPair wm M b c).2 := by
  have q1 := rbpo_range wm M (b.x1, b.x2) (c.x1, c.x2) (b.y1, b.y2) (c.y1, c.y2) N hb.2 hc.2
  rw [← ppR1_def] at q1
  have q2 := rbpo_range wm M (ppR1 wm M b c).1 (c.x1, c.x2) (b.x1, b.x2)
    (ppR1 wm M b c).2 N hb.1 q1.2
  rw [← ppR2_def] at q2
  have q3 := rbpo_range wm M (ppR2 wm M b c).1 (ppR2 wm M b c).2 (ppR1 wm M b c).1
    (c.x1, c.x2) N q1.1 hc.1
  rw [← ppR3_def] at q3
  have q4 := rbpo_range wm M (ppR3 wm M b c).1 (ppR2 wm M b c).2 (ppR2 wm M b c).1
    (ppR3 wm M b c).2 N q2.1 q3.2
  rw [← ppR4_def] at q4
  rw [processPair_eq]
  exact ⟨⟨q4.1, q3.1⟩, ⟨q4.2, q2.2⟩⟩

theorem resolveAgainst_cons_skip (wm : WMat) (M : ℕ) (b c : Branch) (rest : List Branch)
    (h : c.y2 < c.y1) :
    resolveAgainst wm M b (c :: rest) =
      ((resolveAgainst wm M b rest).1, c :: (resolveAgainst wm M b rest).2) := by
  conv_lhs => rw [resolveAgainst]
  rw [if_pos h]

theorem resolveAgainst_cons_go (wm : WMat) (M : ℕ) (b c : Branch) (rest : List Branch)
    (h : ¬ c.y2 < c.y1) :
    resolveAgainst wm M b (c :: rest) =
      ((resolveAgainst wm M (processPair wm M b c).1 rest).1,
        (processPair wm M b c).2 ::
          (resolveAgainst wm M (processPair wm M b c).1 rest).2) := by
  conv_lhs => rw [resolveAgainst]
  rw [if_neg h]

theorem resolveAgainst_range (wm : WMat) (M : ℕ) (N : ℕ) (l : List Branch) :
    ∀ b : Branch, BR N b → (∀ c ∈ l, BR N c) →
      BR N (resolveAgainst wm M b l).1 ∧ ∀ c ∈ (resolveAgainst wm M b l).2, BR N c := by
  induction l with
  | nil =>
    intro b hb _
    exact ⟨hb, by intro c hc; cases hc⟩
  | cons c rest ih =>
    intro b hb hl
    have hcR : BR N c := hl c (List.mem_cons_self _ _)
    have hrest : ∀ d ∈ rest, BR N d := fun d hd => hl d (List.mem_cons_of_mem _ hd)
    by_cases hskip : c.y2 < c.y1
    · rw [resolveAgainst_cons_skip wm M b c rest hskip]
      obtain ⟨ih1, ih2⟩ := ih b hb hrest
      refine ⟨ih1, ?_⟩
      intro d hd
      rcases List.mem_cons.mp hd with rfl | hd
      · exact hcR
      · exact ih2 d hd
    · rw [resolveAgainst_cons_go wm M b c rest hskip]
      obtain ⟨pp1, pp2⟩ := processPair_range wm M b c N hb hcR
      obtain ⟨ih1, ih2⟩ := ih (processPair wm M b c).1 pp1 hrest
      refine ⟨ih1, ?_⟩
      intro d hd
      rcases List.mem_cons.mp hd with rfl | hd
      · exact pp2
      · exact ih2 d hd

theorem rboLoopF_succ_skip (wm : WMat) (M : ℕ) (fuel : ℕ) (a : Branch) (rest : List Branch)
    (h : a.y2 < a.y1) :
    rboLoopF wm M (fuel + 1) (a :: rest) = a :: rboLoopF wm M fuel rest := by
  conv_lhs => rw [rboLoopF]
  rw [if_pos h]

theorem rboLoopF_succ_go (wm : WMat) (M : ℕ) (fuel : ℕ) (a : Branch) (rest : List Branch)
    (h : ¬ a.y2 < a.y1) :
    rboLoopF wm M (fuel + 1) (a :: rest) =
      (resolveAgainst wm M a rest).1 ::
        rboLoopF wm M fuel (resolveAgainst wm M a rest).2 := by
  conv_lhs => rw [rboLoopF]
  rw [if_neg h]

theorem rboLoopF_range (wm : WMat) (M : ℕ) (N : ℕ) : ∀ (fuel : ℕ) (l : List Branch),
    (∀ b ∈ l, BR N b) → ∀ b ∈ rboLoopF wm M fuel l, BR N b := by
  intro fuel
  induction fuel with
  | zero => intro l hl b hb; exact hl b hb
  | succ fuel ih =>
    intro l hl b hb
    cases l with
    | nil =>
      rw [show rboLoopF wm M (fuel + 1) ([] : List Branch) = [] from rfl] at hb
      cases hb
    | cons a rest =>
      have haR : BR N a := hl a (List.mem_cons_self _ _)
      have hrest : ∀ d ∈ rest, BR N d := fun d hd => hl d (List.mem_cons_of_mem _ hd)
      by_cases hskip : a.y2 < a.y1
      · rw [rboLoopF_succ_skip wm M fuel a rest hskip] at hb
        rcases List.mem_cons.mp hb with rfl | hb
        · exact haR
        · exact ih rest hrest b hb
      · rw [rboLoopF_succ_go wm M fuel a rest hskip] at hb
        obtain ⟨ra1, ra2⟩ := resolveAgainst_range wm M N rest a haR hrest
        rcases List.mem_cons.mp hb with rfl | hb
        · exact ra1
        · exact ih (resolveAgainst wm M a rest).2 ra2 b hb

theorem removeBranchOverlap_mem (wm : WMat) (M : ℕ) (N : ℕ) (bs : List Branch)
    (hbs : ∀ b ∈ bs, BR N b) :
    ∀ b ∈ removeBranchOverlap wm M bs, ∃ d, BR N d ∧ b = flagInvalid d := by
  intro b hb
  unfold removeBranchOverlap at hb
  obtain ⟨d, hd, rfl⟩ := List.mem_map.mp hb
  exact ⟨d, rboLoopF_range wm M N bs.length bs hbs d hd, rfl⟩

theorem mem_removeFlaggedPairs_fst (bs : List Branch) (ts : List Band) :
    ∀ b ∈ (removeFlaggedPairs bs ts).1, b ∈ bs ∧ b.x1 ≠ -1 := by
  intro b hb
  unfold removeFlaggedPairs at hb
  rw [List.unzip_eq_map] at hb
  simp only [] at hb
  obtain ⟨e, he, rfl⟩ := List.mem_map.mp hb
  have hf := List.mem_filter.mp he
  refine ⟨(List.of_mem_zip hf.1).1, ?_⟩
  simpa using hf.2

theorem conflict_sets_mem : ∀ (js : List ℕ) (bs : List Branch) (a : Branch),
    a ∈ js.foldl (fun bs' j => bs'.set j { bs'.getD j default with x1 := -1 }) bs →
    a ∈ bs ∨ a.x1 = -1 := by
  intro js
  induction js with
  | nil => intro bs a h; exact Or.inl h
  | cons j js ih =>
    intro bs a h
    rw [List.foldl_cons] at h
    rcases ih _ a h with h | h
    · rcases List.mem_or_eq_of_mem_set h with h | rfl
      · exact Or.inl h
      · exact Or.inr rfl
    · exact Or.inr h

theorem conflictStep_mem (wm : WMat) (M : ℕ) (bs : List Branch) (i : ℕ) (a : Branch)
    (h : a ∈ conflictStep wm M bs i) : a ∈ bs ∨ a.x1 = -1 := by
  unfold conflictStep at h
  simp only [] at h
  split_ifs at h with h1 h2
  · exact conflict_sets_mem _ bs a h
  · rcases List.mem_or_eq_of_mem_set h with h | rfl
    · exact Or.inl h
    · exact Or.inr rfl
  · exact Or.inl h

theorem resolveInconsistent_mem (wm : WMat) (M : ℕ) (bs : List Branch) (a : Branch)
    (h : a ∈ resolveInconsistent wm M bs) : a ∈ bs ∨ a.x1 = -1 := by
  unfold resolveInconsistent at h
  suffices aux : ∀ (js : List ℕ) (cur : List Branch),
      a ∈ js.foldl (conflictStep wm M) cur → a ∈ cur ∨ a.x1 = -1 by
    exact aux _ bs h
  intro js
  induction js with
  | nil => intro cur h; exact Or.inl h
  | cons j js ih =>
    intro cur h
    rw [List.foldl_cons] at h
    rcases ih _ h with h | h
    · exact conflictStep_mem wm M cur j a h
    · exact Or.inr h

theorem combFind_range (wm : WMat) (M : ℕ) (mwps : ℚ) (br : Branch) (i : ℕ) (N : ℕ)
    (hbr : BIn N br) :
    ∀ (comb : List Branch), (∀ a ∈ comb, BIn N a) → ∀ (ids : List (List ℕ))
      (r : List Branch × List (List ℕ) × Bool),
      combFind wm M mwps br i comb ids = some r → ∀ a ∈ r.1, BIn N a := by
  intro comb
  induction comb with
  | nil =>
    intro _ ids r hr
    rw [show combFind wm M mwps br i [] ids = none from rfl] at hr
    cases hr
  | cons plec rest ih =>
    intro hcomb ids r hr
    cases ids with
    | nil =>
      rw [show combFind wm M mwps br i (plec :: rest) [] = none from rfl] at hr
      cases hr
    | cons is0 irest =>
      have hplec : BIn N plec := hcomb plec (List.mem_cons_self _ _)
      have hrest : ∀ a ∈ rest, BIn N a := fun a ha => hcomb a (List.mem_cons_of_mem _ ha)
      have hupd : ∀ a ∈ ({ plec with x2 := max plec.x2 br.x2, y1 := min plec.y1 br.y1 }
          :: rest), BIn N a := by
        intro a ha
        rcases List.mem_cons.mp ha with rfl | ha
        · simp only [BIn, InR] at hplec hbr ⊢
          omega
        · exact hrest a ha
      have hkeep : ∀ a ∈ plec :: rest, BIn N a := hcomb
      rw [combFind] at hr
      simp only [] at hr
      by_cases h1 : isDownstream plec.x1 plec.y2 br.x1 br.y2
      · rw [if_pos h1] at hr
        by_cases h2 : isDownstream plec.x2 plec.y1 br.x1 br.y2
        · rw [if_pos h2] at hr
          by_cases h3 : (canConnect plec.x1 plec.y2 br.x1 br.y2 wm M mwps).1 = true
          · rw [if_pos h3] at hr
            cases hr
            exact hupd
          · rw [if_neg h3] at hr
            by_cases h4 : calBranchWrithe wm M plec < calBranchWrithe wm M br
            · rw [if_pos h4] at hr
              cases hr
              exact hkeep
            · rw [if_neg h4] at hr
              cases hr
              exact hkeep
        · rw [if_neg h2] at hr
          cases hr
          exact hupd
      · rw [if_neg h1] at hr
        obtain ⟨r', hr', rfl⟩ := Option.map_eq_some'.mp hr
        intro a ha
        rcases List.mem_cons.mp ha with rfl | ha
        · exact hplec
        · exact ih hrest irest r' hr' a ha

theorem combineBranches_range (wm : WMat) (M : ℕ) (bs : List Branch) (mwd dl conv : ℚ)
    (N : ℕ) (hbs : ∀ b ∈ bs, BIn N b) :
    ∀ a ∈ (combineBranches wm M bs mwd dl conv).comb, BIn N a := by
  unfold combineBranches
  simp only []
  suffices aux : ∀ (l : List (ℕ × Branch)) (st : CombSt), (∀ q ∈ l, BIn N q.2) →
      (∀ a ∈ st.comb, BIn N a) →
      ∀ a ∈ (l.foldl (combineStep wm M (dl * (mwd / conv))) st).comb, BIn N a by
    refine aux bs.enum ⟨[], [], false⟩ ?_ (by intro a ha; cases ha)
    intro q hq
    have h2 : q.2 ∈ bs.enum.map Prod.snd := List.mem_map_of_mem Prod.snd hq
    rw [List.enum_map_snd] at h2
    exact hbs _ h2
  intro l
  induction l with
  | nil => intro st _ hst a ha; exact hst a ha
  | cons q l ih =>
    intro st hl hst a ha
    rw [List.foldl_cons] at ha
    refine ih _ (fun u hu => hl u (List.mem_cons_of_mem _ hu)) ?_ a ha
    intro u hu
    unfold combineStep at hu
    split at hu
    case _ r heq =>
      exact combFind_range wm M (dl * (mwd / conv)) q.2 q.1 N
        (hl q (List.mem_cons_self _ _)) st.comb hst st.ids r heq u hu
    case _ heq =>
      rcases List.mem_append.mp hu with hu | hu
      · exact hst u hu
      · rw [List.mem_singleton.mp hu]
        exact hl q (List.mem_cons_self _ _)

theorem definePlecs_range (wm : WMat) (M : ℕ) (N : ℕ) (comb : List Branch)
    (mwd pmw dl conv : ℚ) (hdl : 0 < dl) (hcomb : ∀ b ∈ comb, BIn N b) :
    ∀ p ∈ definePlecs wm M comb mwd pmw dl conv,
      (InR N p.id1 ∧ InR N p.id2) ∨ (p.id1 = -1 ∧ 0 ≤ p.id2 ∧ p.id2 + 2 ≤ (N : ℤ)) := by
  intro p hp
  unfold definePlecs at hp
  simp only [] at hp
  rw [definePlecs_fold_eq wm M mwd pmw dl conv _ _ [], List.nil_append] at hp
  obtain ⟨ic, hic, hfic⟩ := List.mem_filterMap.mp hp
  have hc : ic.2 ∈ removeBranchOverlap wm M
      (comb.map (fun c => Branch.mk c.x1 c.y2 c.x1 c.y2)) := by
    have h2 : ic.2 ∈ (removeBranchOverlap wm M
        (comb.map (fun c => Branch.mk c.x1 c.y2 c.x1 c.y2))).enum.map Prod.snd :=
      List.mem_map_of_mem Prod.snd hic
    rwa [List.enum_map_snd] at h2
  have hmapped : ∀ b ∈ comb.map (fun c => Branch.mk c.x1 c.y2 c.x1 c.y2), BR N b := by
    intro b hb
    obtain ⟨c, hcm, rfl⟩ := List.mem_map.mp hb
    obtain ⟨hc1, hc2, hc3, hc4⟩ := hcomb c hcm
    simp only [BR, LimR, InR] at *
    omega
  obtain ⟨d, hdR, hde⟩ := removeBranchOverlap_mem wm M N _ hmapped ic.2 hc
  simp only [] at hfic
  split_ifs at hfic with hg
  cases hfic
  have hns : 0 < ic.2.x2 - ic.2.x1 + 1 := by
    by_contra hle
    push_neg at hle
    have hq : ((ic.2.x2 - ic.2.x1 + 1 : ℤ) : ℚ) ≤ 0 := by exact_mod_cast hle
    exact absurd hg.1 (not_lt.mpr (mul_nonpos_of_nonpos_of_nonneg hq hdl.le))
  unfold flagInvalid at hde
  split_ifs at hde with hflag
  · right
    rw [hde]
    exact ⟨rfl, hdR.1.2.2.1, hdR.1.2.2.2⟩
  · left
    rw [hde] at hns ⊢
    obtain ⟨hx, hy⟩ := hdR
    simp only [LimR, InR] at hx ⊢
    omega

/-- C6 (amended): under the caller preconditions (`min_writhe_density ≥ 0`,
`disc_len > 0`, positive conversion factor, zeroed boundary rows/columns), no
emitted candidate pair and no branch surviving the overlap and conflict stages
references row or column `0` or `N-1`; an emitted plectoneme interval either
also lies in `[1, N-2]` on both ends, or — when its candidate was flagged by the
second overlap pass inside `_define_plecs` — carries the sentinel `id1 = -1`
(which as a python index denotes `N-1`) with `id2` still in `[0, N-2]`; the
latter case is reachable (`C6_counterexample`), so the sentinel disjunct cannot
be dropped.  The band lists `ts1, ts2` fed to the flag filters are arbitrary. -/
theorem C6_amended (wm : WMat) (N : ℕ) (mwd pmw dl cd conv : ℚ)
    (ts1 ts2 : List Band)
    (hN : 2 ≤ N)
    (hbz : ∀ i j, i = 0 ∨ i + 1 = N ∨ j = 0 ∨ j + 1 = N → wm i j = 0)
    (hmwd : 0 ≤ mwd) (hdl : 0 < dl) (hconv : 0 < conv) :
    (∀ p ∈ findPairs wm N (dl * (mwd / conv)), InR N p.x ∧ InR N p.y) ∧
    (∀ b ∈ (removeFlaggedPairs (resolveInconsistent wm N
        (removeFlaggedPairs (removeBranchOverlap wm N
          (findBranches wm N mwd dl cd conv).1) ts1).1) ts2).1, BIn N b) ∧
    (∀ p ∈ definePlecs wm N (combineBranches wm N
        (removeFlaggedPairs (resolveInconsistent wm N
          (removeFlaggedPairs (removeBranchOverlap wm N
            (findBranches wm N mwd dl cd conv).1) ts1).1) ts2).1 mwd dl conv).comb
        mwd pmw dl conv,
      (InR N p.id1 ∧ InR N p.id2) ∨
        (p.id1 = -1 ∧ 0 ≤ p.id2 ∧ p.id2 + 2 ≤ (N : ℤ))) := by
  have hm : 0 ≤ dl * (mwd / conv) := by positivity
  have hpairs := findPairs_range wm N (dl * (mwd / conv)) hN hbz hm
  have hbranches : ∀ b ∈ (findBranches wm N mwd dl cd conv).1, BR N b := by
    intro b hb
    obtain ⟨t, ht, rfl⟩ := findBranches_fst_mem wm N mwd dl cd conv b hb
    have hT := buildTracers_range ⌈cd / dl⌉ N (findPairs wm N (dl * (mwd / conv))) []
      hpairs (by intro u hu; cases hu) t ht
    simp only [BR, LimR, InR] at hT ⊢
    omega
  have hsurv : ∀ b ∈ (removeFlaggedPairs (resolveInconsistent wm N
      (removeFlaggedPairs (removeBranchOverlap wm N
        (findBranches wm N mwd dl cd conv).1) ts1).1) ts2).1, BIn N b := by
    intro b hb
    obtain ⟨hb1, hbx⟩ := mem_removeFlaggedPairs_fst _ _ b hb
    rcases resolveInconsistent_mem wm N _ b hb1 with hb2 | hb2
    · obtain ⟨hb3, hbx3⟩ := mem_removeFlaggedPairs_fst _ _ b hb2
      obtain ⟨d, hdR, rfl⟩ := removeBranchOverlap_mem wm N N _ hbranches b hb3
      have hf := flagInvalid_unflagged d hbx3
      rw [hf.1]
      exact br_valid_in N d hdR hf.2
    · exact absurd hb2 hbx
  exact ⟨hpairs, hsurv, definePlecs_range wm N N _ mwd pmw dl conv hdl
    (combineBranches_range wm N _ mwd dl conv N hsurv)⟩

set_option maxRecDepth 8000 in
/-- Witness for `C6_amended`: the pair-stage conclusion at the concrete matrix
`c6wm` (`N = 16`, `min_writhe_density = 0`, `plec_min_writhe = 0`,
`disc_len = 1`, `connect_dist = 3`, conversion factor `3`), instantiated at the
emitted candidate pair `(1, 6)` of row `1`. -/
theorem C6_amended_witness :
    InR 16 (PairR.mk 1 6 1 2).x ∧ InR 16 (PairR.mk 1 6 1 2).y :=
  (C6_amended c6wm 16 0 0 1 3 3 [] [] (by norm_num)
    (by
      intro i j h
      rcases h with h | h | h | h
      · subst h
        simp [c6wm]
      · have hi : i = 15 := by omega
        subst hi
        simp [c6wm]
      · subst h
        simp [c6wm]
      · have hj : j = 15 := by omega
        subst hj
        simp [c6wm])
    (by norm_num) (by norm_num) (by norm_num)).1
    (PairR.mk 1 6 1 2) (by with_unfolding_all decide)

end PlecFinder
